import Mathlib

/-!
Verification of `SubmissionFiles/code/QA_char_word_embed/layers.py` (BiDAF-style
reading-comprehension layers).

Tensors are shallowly embedded as nested lists of rationals:
a vector is `List ℚ`, a matrix (seq_len × features) is `List (List ℚ)`, and a
batched tensor (batch × seq_len × features) is `List (List (List ℚ))`.
Machine floats are modelled by exact rationals; the transcendental functions
`exp` and `sigmoid` (whose values are not rational) are abstracted as explicit
function parameters, since every property verified here holds for any choice
of those functions (positivity of the exponential is assumed where needed).
Dropout's randomness is modelled by an explicit noise function parameter
together with the module's `training` flag, mirroring `F.dropout(x, p, training)`.
-/

abbrev Vec := List ℚ
abbrev Mat := List Vec
abbrev Ten3 := List Mat

/-- Dot product of two vectors (used to express linear layers and matmul). -/
def dot (a b : Vec) : ℚ := (List.zipWith (· * ·) a b).sum

/-- `torch.matmul` on a (n × m) and an (m × p) matrix; the number of columns of
the right factor is read off its first row, as the shape is in the tensor. -/
def matMulM (M N : Mat) : Mat :=
  M.map (fun row => (List.range (N.headD []).length).map
    (fun j => dot row (N.map (fun r => r.getD j 0))))

/-- `Tensor.transpose(1, 2)` applied to one batch element (swap the last two axes). -/
def transposeT (M : Mat) : Mat :=
  (List.range (M.headD []).length).map (fun j => M.map (fun r => r.getD j 0))

/-- `torch.bmm`: batched matrix multiplication. -/
def bmm (A B : Ten3) : Ten3 := List.zipWith matMulM A B

/-- Elementwise product of two batched tensors (`*` on same-shaped tensors). -/
def mul3 (A B : Ten3) : Ten3 :=
  List.zipWith (fun X Y => List.zipWith (fun r s => List.zipWith (· * ·) r s) X Y) A B

/-- `torch.cat(_, dim=2)`: concatenation along the feature axis. -/
def catFeat (A B : Ten3) : Ten3 :=
  List.zipWith (fun X Y => List.zipWith (· ++ ·) X Y) A B

/-- Elementwise sum of two matrices (broadcast-free `+`). -/
def addMM (M N : Mat) : Mat := List.zipWith (fun r s => List.zipWith (· + ·) r s) M N

/-- Adding a scalar (a broadcast bias) to every entry of a matrix. -/
def addSc (M : Mat) (b : ℚ) : Mat := M.map (fun r => r.map (· + b))

/-- Turn a parameter vector of length h into the (h × 1) column matrix that
`nn.Parameter(torch.zeros(hidden_size, 1))` stores. -/
def colMat (w : Vec) : Mat := w.map (fun x => [x])

/-- `Tensor.expand([-1, -1, n])` on a (· × 1) matrix: replicate the single column. -/
def expandCols (n : ℕ) (M : Mat) : Mat :=
  M.map (fun row => List.replicate n (row.getD 0 0))

/-- `Tensor.expand([-1, n, -1])` on a (1 × ·) matrix: replicate the single row. -/
def expandRows (n : ℕ) (M : Mat) : Mat := List.replicate n (M.getD 0 [])

/-- Advanced indexing `x[idx]` along the batch axis. -/
def gather {α : Type} (d : α) (x : List α) (idx : List ℕ) : List α :=
  idx.map (fun i => x.getD i d)

/-- `Tensor.view(-1, seq_len, f)`: regroup a flat batch into chunks of `k` rows. -/
def chunkList {α : Type} (k : ℕ) (l : List α) : List (List α) :=
  (List.range (l.length / k)).map (fun i => (l.drop (i * k)).take k)

/-- `F.relu` on a scalar. -/
def reluQ (x : ℚ) : ℚ := max x 0

/-- `torch.max(_, dim)` reduction over a nonempty list (the source only reduces
nonempty axes; on `[]` we return 0, a case the library would reject). -/
def maxList (l : List ℚ) : ℚ :=
  match l with
  | [] => 0
  | a :: t => t.foldl max a

/-- `nn.Linear` without bias applied to one feature vector (`bias=False`). -/
def linearNB (W : Mat) (v : Vec) : Vec := W.map (fun row => dot row v)

/-- `nn.Linear` with bias applied to one feature vector. -/
def linearB (W : Mat) (b : Vec) (v : Vec) : Vec :=
  List.zipWith (fun row bi => dot row v + bi) W b

/-- `nn.Embedding` lookup of one index in a table of row vectors. -/
def embLookup (table : Mat) (i : ℕ) : Vec := table.getD i []

/-- `F.dropout(x, p, training)` on a vector.  The Bernoulli draws are supplied
by the explicit noise function `ν` (true = dropped); kept entries are scaled by
`1 / (1 - p)` as in inverted dropout.  With `training = false` it is `x` itself. -/
def drop1 (p : ℚ) (training : Bool) (ν : ℕ → Bool) (x : Vec) : Vec :=
  if training then
    List.zipWith (fun i v => if ν i then 0 else v / (1 - p)) (List.range x.length) x
  else x

/-- `F.dropout` on a matrix (rank-2 tensor). -/
def drop2 (p : ℚ) (training : Bool) (ν : ℕ → ℕ → Bool) (x : Mat) : Mat :=
  if training then
    List.zipWith (fun i r => drop1 p true (ν i) r) (List.range x.length) x
  else x

/-- `F.dropout` on a batched rank-3 tensor. -/
def drop3 (p : ℚ) (training : Bool) (ν : ℕ → ℕ → ℕ → Bool) (x : Ten3) : Ten3 :=
  if training then
    List.zipWith (fun i m => drop2 p true (ν i) m) (List.range x.length) x
  else x

/-- Modelled from the spec: `util.masked_softmax` (module `util` is imported by
`layers.py` but is not part of the sources).  Per the spec, softmax is
normalized over the valid positions only, invalid positions get exactly zero
probability mass, and a row whose mask is entirely invalid yields the all-zero
sentinel.  The exponential is the parameter `e` (instantiated with any strictly
positive function; the real `exp` satisfies the positivity assumption). -/
def maskedSoftmax (e : ℚ → ℚ) (logits : Vec) (mask : List Bool) : Vec :=
  let z := (List.zipWith (fun l m => if m then e l else 0) logits mask).sum
  if z = 0 then List.replicate logits.length 0
  else List.zipWith (fun l m => if m then e l / z else 0) logits mask

/-- Modelled from the spec: `masked_softmax(s, mask, dim=2)` on one batch
element — each row of `s` is normalized over the query axis. -/
def maskedSoftmaxRows (e : ℚ → ℚ) (s : Mat) (mask : List Bool) : Mat :=
  s.map (fun row => maskedSoftmax e row mask)

/-- Modelled from the spec: `masked_softmax(s, mask, dim=1)` on one batch
element — each column of `s` is normalized over the context axis. -/
def maskedSoftmaxCols (e : ℚ → ℚ) (s : Mat) (mask : List Bool) : Mat :=
  transposeT ((transposeT s).map (fun col => maskedSoftmax e col mask))

/-! ## HighwayEncoder (layers.py lines 141-158) -/

/-- Parameters of one `nn.Linear(hidden_size, hidden_size)` layer. -/
structure LinParams where
  weight : Mat
  bias : Vec

/-- One pass of the highway loop body on a single feature vector:
`g = sigmoid(gate(x)); t = relu(transform(x)); x = g * t + (1 - g) * x`.
The sigmoid is the abstract parameter `σg`. -/
def highwayStep (σg : ℚ → ℚ) (gt : LinParams × LinParams) (x : Vec) : Vec :=
  let g := (linearB gt.1.weight gt.1.bias x).map σg
  let t := (linearB gt.2.weight gt.2.bias x).map reluQ
  List.zipWith (· + ·) (List.zipWith (· * ·) g t)
    (List.zipWith (· * ·) (g.map (fun gi => 1 - gi)) x)

/-- `HighwayEncoder.forward` on a single feature vector: the `for gate,
transform in zip(self.gates, self.transforms)` loop. -/
def HighwayEncoder.forwardVec (σg : ℚ → ℚ) (gates transforms : List LinParams)
    (x : Vec) : Vec :=
  (gates.zip transforms).foldl (fun x gt => highwayStep σg gt x) x

/-- `HighwayEncoder.forward` on a (batch, seq_len, hidden_size) tensor: every
position's feature vector goes through the same layers. -/
def HighwayEncoder.forward (σg : ℚ → ℚ) (gates transforms : List LinParams)
    (x : Ten3) : Ten3 :=
  x.map (fun m => m.map (HighwayEncoder.forwardVec σg gates transforms))

/-! ## CNN (layers.py lines 127-138) -/

/-- `nn.Conv1d(char_emb_size, f, k, bias=True)` applied to one word: the input
is (in_channels × word_len), `weight` is (f × in_channels × k), `bias` has
length f, and output position `t` of filter `o` is
`bias o + Σ_ch Σ_d weight o ch d * X ch (t + d)`. -/
def conv1dW (weight : List Mat) (bias : Vec) (X : Mat) : Mat :=
  let W := (X.headD []).length
  let k := ((weight.headD []).headD []).length
  List.zipWith (fun wo bo => (List.range (W + 1 - k)).map (fun t =>
    bo + (List.zipWith (fun wch xch =>
      ((List.range k).map (fun d => wch.getD d 0 * xch.getD (t + d) 0)).sum)
      wo X).sum)) weight bias

/-- `CNN.forward` on one word: convolve, rectify, then `torch.max(_, dim=2)`
collapses the remaining character-position axis. -/
def CNN.forward (weight : List Mat) (bias : Vec) (X : Mat) : Vec :=
  let Xconv := conv1dW weight bias X
  Xconv.map (fun row => maxList (row.map reluQ))

/-! ## Embedding (layers.py lines 14-31) -/

/-- Parameters owned by the word-only `Embedding` module. -/
structure EmbeddingParams where
  wordVectors : Mat
  projWeight : Mat
  hwyGates : List LinParams
  hwyTransforms : List LinParams
  dropProb : ℚ

/-- `Embedding.forward`: lookup, dropout, bias-free projection, highway. -/
def Embedding.forward (σg : ℚ → ℚ) (P : EmbeddingParams) (training : Bool)
    (ν : ℕ → ℕ → ℕ → Bool) (x : List (List ℕ)) : Ten3 :=
  let emb := x.map (fun row => row.map (embLookup P.wordVectors))
  let emb := drop3 P.dropProb training ν emb
  let emb := emb.map (fun m => m.map (linearNB P.projWeight))
  HighwayEncoder.forward σg P.hwyGates P.hwyTransforms emb

/-! ## EmbeddingChar and Embedding_Char (layers.py lines 33-124) -/

/-- The CNN kernel width hard-coded in `EmbeddingChar.__init__` (line 48). -/
def EmbeddingChar.kernelSize : ℕ := 5

/-- The filter count chosen in `EmbeddingChar.__init__` (line 47):
`n_filters = self.word_emb_size`. -/
def EmbeddingChar.nFilters (wordEmbSize : ℕ) : ℕ := wordEmbSize

/-- Parameters owned by the word+character embedding modules. -/
structure EmbeddingCharParams where
  wordVectors : Mat
  charVectors : Mat
  wordEmbSize : ℕ
  cnnWeight : List Mat
  cnnBias : Vec
  projWeight : Mat
  hwyGates : List LinParams
  hwyTransforms : List LinParams
  dropProb : ℚ

/-- `EmbeddingChar.forward` (lines 53-73): reshape the character tensor to a
flat batch of words, embed characters, transpose for the CNN, run the CNN,
reshape back, embed words, concatenate, dropout, project, highway. -/
def EmbeddingChar.forward (σg : ℚ → ℚ) (P : EmbeddingCharParams) (training : Bool)
    (ν : ℕ → ℕ → ℕ → Bool) (xWord : List (List ℕ)) (xChar : List (List (List ℕ))) :
    Ten3 :=
  let seqLen := (xChar.headD []).length
  let xCharFlat := xChar.flatten
  let embChar := xCharFlat.map (fun w => w.map (embLookup P.charVectors))
  let embChar := embChar.map transposeT
  let embChar := embChar.map (CNN.forward P.cnnWeight P.cnnBias)
  let embChar := chunkList seqLen embChar
  let embWord := xWord.map (fun row => row.map (embLookup P.wordVectors))
  let emb := catFeat embWord embChar
  let emb := drop3 P.dropProb training ν emb
  let emb := emb.map (fun m => m.map (linearNB P.projWeight))
  HighwayEncoder.forward σg P.hwyGates P.hwyTransforms emb


/-- `Embedding_Char.forward` (lines 100-124).  The class is a second copy of
`EmbeddingChar` in the source; its body is embedded separately so the two can
be compared. -/
def Embedding_Char.forward (σg : ℚ → ℚ) (P : EmbeddingCharParams) (training : Bool)
    (ν : ℕ → ℕ → ℕ → Bool) (xWord : List (List ℕ)) (xChar : List (List (List ℕ))) :
    Ten3 :=
  let seqLen := (xChar.headD []).length
  let xCharFlat := xChar.flatten
  let embChar := xCharFlat.map (fun w => w.map (embLookup P.charVectors))
  let embChar := embChar.map transposeT
  let embChar := embChar.map (CNN.forward P.cnnWeight P.cnnBias)
  let embChar := chunkList seqLen embChar
  let embWord := xWord.map (fun row => row.map (embLookup P.wordVectors))
  let emb := catFeat embWord embChar
  let emb := drop3 P.dropProb training ν emb
  let emb := emb.map (fun m => m.map (linearNB P.projWeight))
  HighwayEncoder.forward σg P.hwyGates P.hwyTransforms emb

/-! ## RNNEncoder (layers.py lines 161-214) -/

/-- The recurrent-cell families dispatched on `rnn_type` in
`RNNEncoder.__init__`. -/
inductive RnnChoice
  | lstm | rnn | gru | urnn | goru
deriving DecidableEq, Repr

/-- The state `RNNEncoder.__init__` leaves behind: `self.drop_prob` and, when
the `rnn_type` string matched one of the five branches, `self.rnn`.  No branch
matches an unrecognized string, so then `self.rnn` is simply never assigned —
modelled as `none`. -/
structure RNNEncoderM where
  hiddenSize : ℕ
  dropProb : ℚ
  rnn : Option RnnChoice
deriving Repr, DecidableEq

/-- `RNNEncoder.__init__` (lines 164-192).  The only construction-time
validation is the one performed inside `nn.LSTM` / `nn.RNN` / `nn.GRU`, which
reject a `dropout` argument outside [0, 1]; the module itself checks nothing,
and `dropout` is passed as 0 unless `num_layers > 1`. -/
def RNNEncoder.init (inputSize hiddenSize numLayers : ℕ) (rnnType : String)
    (dropProb : ℚ) : Except String RNNEncoderM :=
  let _ := inputSize
  let dropoutArg : ℚ := if numLayers > 1 then dropProb else 0
  let builtin (ch : RnnChoice) : Except String RNNEncoderM :=
    if 0 ≤ dropoutArg ∧ dropoutArg ≤ 1 then .ok ⟨hiddenSize, dropProb, some ch⟩
    else .error "dropout should be a number in range [0, 1]"
  if rnnType = "LSTM" then builtin .lstm
  else if rnnType = "RNN" then builtin .rnn
  else if rnnType = "GRU" then builtin .gru
  else if rnnType = "URNN" then .ok ⟨hiddenSize, dropProb, some .urnn⟩
  else if rnnType = "GORU" then .ok ⟨hiddenSize, dropProb, some .goru⟩
  else .ok ⟨hiddenSize, dropProb, none⟩

/-- Modelled from the spec: the semantics of one recurrent cell applied to one
(unpadded) sequence.  `urnn.py`, `goru.py` and the torch recurrences are not
part of the sources; the spec describes the cells as interchangeable
implementations with matching input/output contracts (a length-preserving map
producing vectors of width `2 * hidden_size` after bidirectional concatenation),
so a cell is an abstract function assumed to satisfy that contract. -/
def CellFun := Mat → Mat

/-- The cell contract from the spec: length-preserving, output feature width
`2 * hidden_size`. -/
def CellContract (hiddenSize : ℕ) (cell : CellFun) : Prop :=
  ∀ s : Mat, (cell s).length = s.length ∧ ∀ v ∈ cell s, v.length = 2 * hiddenSize

/-- The body of `RNNEncoder.forward` (lines 194-214): save the padded length,
sort by descending length (`lengths.sort(0, descending=True)` also yields the
sorting index used to permute the batch), pack (drop padded positions), run the
cell, unpack to `total_length=orig_len` (padding with zero vectors), invert the
sort with `sort_idx.sort(0)`, and apply dropout. -/
def rnnForwardPipeline (cell : CellFun) (dropProb : ℚ) (training : Bool)
    (ν : ℕ → ℕ → ℕ → Bool) (x : Ten3) (lengths : List ℕ) : Ten3 :=
  let origLen := (x.headD []).length
  let n := lengths.length
  let sortIdx := List.insertionSort (fun a b => lengths.getD b 0 ≤ lengths.getD a 0)
      (List.range n)
  let sortedLens := gather 0 lengths sortIdx
  let xs := gather [] x sortIdx
  let packed := List.zipWith (fun (m : Mat) (len : ℕ) => m.take len) xs sortedLens
  let out := packed.map cell
  let unpacked := out.map (fun m =>
    m ++ List.replicate (origLen - m.length) (List.replicate (m.headD []).length (0 : ℚ)))
  let unsortIdx := List.insertionSort (fun a b => sortIdx.getD a 0 ≤ sortIdx.getD b 0)
      (List.range n)
  let res := gather [] unpacked unsortIdx
  drop3 dropProb training ν res

/-- `RNNEncoder.forward` on the module state: accessing `self.rnn` fails with
an `AttributeError` when no `__init__` branch assigned it (modelled as `none`),
and `F.dropout` rejects a rate outside [0, 1] at call time. -/
def RNNEncoder.forward (m : RNNEncoderM) (cellSem : RnnChoice → CellFun)
    (training : Bool) (ν : ℕ → ℕ → ℕ → Bool) (x : Ten3) (lengths : List ℕ) :
    Option Ten3 :=
  match m.rnn with
  | none => none
  | some ch =>
    if 0 ≤ m.dropProb ∧ m.dropProb ≤ 1 then
      some (rnnForwardPipeline (cellSem ch) m.dropProb training ν x lengths)
    else none

/-! ## BiDAFAttention (layers.py lines 217-262) -/

/-- Parameters of `BiDAFAttention` (`c_weight`, `q_weight` are (h × 1) columns,
`cq_weight` is (1, 1, h), `bias` a scalar); stored here as the underlying
vectors/scalar. -/
structure BiDAFAttnParams where
  cWeight : Vec
  qWeight : Vec
  cqWeight : Vec
  bias : ℚ
  dropProb : ℚ

/-- `BiDAFAttention.get_similarity_matrix` (lines 248-262): dropout on `c` and
`q`, then `s = s0 + s1 + s2 + bias` with
`s0 = matmul(c, c_weight).expand(-1, -1, q_len)`,
`s1 = matmul(q, q_weight).transpose(1, 2).expand(-1, c_len, -1)`,
`s2 = matmul(c * cq_weight, q.transpose(1, 2))`. -/
def BiDAFAttention.getSimilarityMatrix (P : BiDAFAttnParams) (training : Bool)
    (νc νq : ℕ → ℕ → ℕ → Bool) (c q : Ten3) : Ten3 :=
  let cLen := (c.headD []).length
  let qLen := (q.headD []).length
  let c' := drop3 P.dropProb training νc c
  let q' := drop3 P.dropProb training νq q
  let s0 := c'.map (fun cb => expandCols qLen (matMulM cb (colMat P.cWeight)))
  let s1 := q'.map (fun qb => expandRows cLen (transposeT (matMulM qb (colMat P.qWeight))))
  let s2 := List.zipWith (fun cb qb =>
    matMulM (cb.map (fun row => List.zipWith (· * ·) row P.cqWeight)) (transposeT qb)) c' q'
  List.zipWith (fun m12 m3 => addSc (addMM m12 m3) P.bias) (List.zipWith addMM s0 s1) s2

/-- `BiDAFAttention.forward` (lines 230-246): similarity matrix, the two
masked-softmax normalizations `s1` (query axis) and `s2` (context axis),
`a = bmm(s1, q)`, `b = bmm(bmm(s1, s2ᵀ), c)`, and the fused output
`cat([c, a, c * a, c * b], dim=2)`. -/
def BiDAFAttention.forward (e : ℚ → ℚ) (P : BiDAFAttnParams) (training : Bool)
    (νc νq : ℕ → ℕ → ℕ → Bool) (c q : Ten3) (cMask qMask : List (List Bool)) : Ten3 :=
  let s := BiDAFAttention.getSimilarityMatrix P training νc νq c q
  let s1 := List.zipWith (fun sb qm => maskedSoftmaxRows e sb qm) s qMask
  let s2 := List.zipWith (fun sb cm => maskedSoftmaxCols e sb cm) s cMask
  let a := bmm s1 q
  let b := bmm (bmm s1 (s2.map transposeT)) c
  catFeat (catFeat (catFeat c a) (mul3 c a)) (mul3 c b)

/-! ## BiDAFOutput (layers.py lines 265-299) -/

/-- A tensor carrying its shape explicitly, used where the source applies the
shape-polymorphic `Tensor.squeeze()`. -/
structure TensorQ where
  shape : List ℕ
  data : List ℚ
deriving Repr, DecidableEq

/-- `Tensor.squeeze()` with no argument: every axis of size 1 is removed. -/
def TensorQ.squeeze (t : TensorQ) : TensorQ :=
  ⟨t.shape.filter (fun d => d ≠ 1), t.data⟩

/-- View a nested-list rank-3 tensor as a `TensorQ` (row-major data). -/
def toTensor3 (x : Ten3) : TensorQ :=
  ⟨[x.length, (x.headD []).length, ((x.headD []).headD []).length],
   (x.map List.flatten).flatten⟩

/-- Modelled from the spec: `masked_softmax(_, mask, log_softmax=True)` from
`util` as used on the squeezed logits.  The spec describes it as a masked
normalization along the last axis, so it preserves the shape of its input;
rows of the flattened data are normalized with the matching mask row (the
logarithm of the result, being irrational, is not representable over ℚ, and
no claim below depends on the data values of this function — only on its
shape behaviour). -/
def maskedSoftmaxT (e : ℚ → ℚ) (t : TensorQ) (mask : List (List Bool)) : TensorQ :=
  let lastDim := t.shape.getLastD 1
  let rows := chunkList lastDim t.data
  ⟨t.shape,
   (rows.mapIdx (fun i r => maskedSoftmax e r (mask.getD (i % max 1 mask.length) []))).flatten⟩

/-- Parameters of `BiDAFOutput`: the four scalar-output linear layers and the
drop probability passed to the inner `RNNEncoder(..., rnn_type='LSTM')`. -/
structure BiDAFOutputParams where
  attLinear1 : LinParams
  modLinear1 : LinParams
  attLinear2 : LinParams
  modLinear2 : LinParams
  dropProb : ℚ

/-- `BiDAFOutput.forward` (lines 289-299): `logits_1 = att_linear_1(att) +
mod_linear_1(mod)`, `mod_2 = rnn(mod, mask.sum(-1))`, `logits_2 =
att_linear_2(att) + mod_linear_2(mod_2)`, then the masked log-softmax of the
`squeeze()`d logits.  `lstmCell` is the (abstract) semantics of the inner
bidirectional LSTM. -/
def BiDAFOutput.forward (e : ℚ → ℚ) (P : BiDAFOutputParams) (lstmCell : CellFun)
    (training : Bool) (ν : ℕ → ℕ → ℕ → Bool) (att mod : Ten3)
    (mask : List (List Bool)) : TensorQ × TensorQ :=
  let logits1 := List.zipWith addMM
    (att.map (fun m => m.map (linearB P.attLinear1.weight P.attLinear1.bias)))
    (mod.map (fun m => m.map (linearB P.modLinear1.weight P.modLinear1.bias)))
  let lengths := mask.map (fun r => (r.map (fun b => if b then 1 else 0)).sum)
  let mod2 := rnnForwardPipeline lstmCell P.dropProb training ν mod lengths
  let logits2 := List.zipWith addMM
    (att.map (fun m => m.map (linearB P.attLinear2.weight P.attLinear2.bias)))
    (mod2.map (fun m => m.map (linearB P.modLinear2.weight P.modLinear2.bias)))
  let logp1 := maskedSoftmaxT e ((toTensor3 logits1).squeeze) mask
  let logp2 := maskedSoftmaxT e ((toTensor3 logits2).squeeze) mask
  (logp1, logp2)

/-! ## Shape predicates and general lemmas -/

/-- A rank-2 tensor of `r` rows, each of width `c`. -/
abbrev Shape2 {α : Type} (m : List (List α)) (r c : ℕ) : Prop :=
  m.length = r ∧ ∀ row ∈ m, row.length = c

/-- A rank-3 tensor: `a` matrices of shape `r × c`. -/
abbrev Shape3 {α : Type} (x : List (List (List α))) (a r c : ℕ) : Prop :=
  x.length = a ∧ ∀ m ∈ x, Shape2 m r c

theorem getD_map' {α β : Type} (f : α → β) (l : List α) (d : β) {i : ℕ}
    (h : i < l.length) : (l.map f).getD i d = f l[i] := by
  rw [List.getD_eq_getElem _ _ (by simpa using h)]
  exact List.getElem_map ..

theorem getD_zipWith' {α β γ : Type} (f : α → β → γ) (a : List α) (b : List β)
    (d : γ) {i : ℕ} (ha : i < a.length) (hb : i < b.length) :
    (List.zipWith f a b).getD i d = f a[i] b[i] := by
  rw [List.getD_eq_getElem _ _ (by simp; omega)]
  exact List.getElem_zipWith ..

theorem getD_range' (n : ℕ) {i : ℕ} (h : i < n) : (List.range n).getD i 0 = i := by
  rw [List.getD_eq_getElem _ _ (by simpa using h)]
  exact List.getElem_range ..

theorem getD_replicate' {α : Type} (a d : α) {n i : ℕ} (h : i < n) :
    (List.replicate n a).getD i d = a := by
  rw [List.getD_eq_getElem _ _ (by simpa using h)]
  exact List.getElem_replicate ..

theorem map_getD_range {α : Type} (l : List α) (d : α) {n : ℕ} (h : l.length = n) :
    (List.range n).map (fun i => l.getD i d) = l := by
  apply List.ext_getElem
  · simp [h]
  · intro i h1 h2
    rw [List.getElem_map, List.getElem_range, List.getD_eq_getElem _ _ h2]

theorem dot_comm (a b : Vec) : dot a b = dot b a := by
  unfold dot
  rw [List.zipWith_comm_of_comm]
  exact mul_comm

theorem dot_mul_assoc : ∀ (a b c : Vec),
    dot (List.zipWith (· * ·) a b) c = dot a (List.zipWith (· * ·) b c)
  | [], _, _ => by simp [dot]
  | _ :: _, [], _ => by simp [dot]
  | _ :: _, _ :: _, [] => by simp [dot]
  | x :: a, y :: b, z :: c => by
    simp only [dot, List.zipWith_cons_cons, List.sum_cons] at *
    rw [mul_assoc]
    exact congrArg _ (dot_mul_assoc a b c)

theorem maskedSoftmax_length (e : ℚ → ℚ) (logits : Vec) (mask : List Bool)
    (h : mask.length = logits.length) :
    (maskedSoftmax e logits mask).length = logits.length := by
  by_cases hz : (List.zipWith (fun l b => if b then e l else 0) logits mask).sum = 0
  · simp [maskedSoftmax, hz, h]
  · simp [maskedSoftmax, hz, h]

theorem zipWith_masked_sum_zero (e : ℚ → ℚ) :
    ∀ (l : Vec) (m : List Bool), (∀ b ∈ m, b = false) →
      (List.zipWith (fun l b => if b then e l else 0) l m).sum = 0
  | [], _, _ => by simp
  | _ :: _, [], _ => by simp
  | x :: l, b :: m, h => by
    have hb : b = false := h b (by simp)
    have ih := zipWith_masked_sum_zero e l m (fun b hbm => h b (by simp [hbm]))
    simp [hb, ih]

theorem drop1_length (p : ℚ) (t : Bool) (ν : ℕ → Bool) (x : Vec) :
    (drop1 p t ν x).length = x.length := by
  unfold drop1; split <;> simp

theorem drop2_shape {p : ℚ} {t : Bool} {ν : ℕ → ℕ → Bool} {x : Mat} {r c : ℕ}
    (h : Shape2 x r c) : Shape2 (drop2 p t ν x) r c := by
  obtain ⟨h1, h2⟩ := h
  unfold drop2
  split
  · refine ⟨by simp [h1], ?_⟩
    intro row hrow
    simp only [List.mem_iff_getElem] at hrow
    obtain ⟨i, hi, hrow⟩ := hrow
    simp only [List.getElem_zipWith] at hrow
    rw [← hrow, drop1_length]
    exact h2 _ (by simp at hi; exact List.getElem_mem _)
  · exact ⟨h1, h2⟩

theorem drop3_shape {p : ℚ} {t : Bool} {ν : ℕ → ℕ → ℕ → Bool} {x : Ten3} {a r c : ℕ}
    (h : Shape3 x a r c) : Shape3 (drop3 p t ν x) a r c := by
  obtain ⟨h1, h2⟩ := h
  unfold drop3
  split
  · refine ⟨by simp [h1], ?_⟩
    intro m hm
    simp only [List.mem_iff_getElem] at hm
    obtain ⟨i, hi, hm⟩ := hm
    simp only [List.getElem_zipWith] at hm
    rw [← hm]
    exact drop2_shape (h2 _ (by simp at hi; exact List.getElem_mem _))
  · exact ⟨h1, h2⟩

theorem matMulM_shape {M N : Mat} {r k m p : ℕ} (hM : Shape2 M r k)
    (hN : Shape2 N m p) (hm : 0 < m) : Shape2 (matMulM M N) r p := by
  obtain ⟨hM1, _⟩ := hM
  obtain ⟨hN1, hN2⟩ := hN
  have hhead : (N.headD []).length = p := by
    cases N with
    | nil => simp at hN1; omega
    | cons h t => exact hN2 h (by simp)
  constructor
  · simp [matMulM, hM1]
  · intro row hrow
    simp only [matMulM, List.mem_map] at hrow
    obtain ⟨a, _, hrow⟩ := hrow
    rw [← hrow]
    simpa using hhead

theorem transposeT_shape {M : Mat} {r c : ℕ} (hM : Shape2 M r c)
    (hr : 0 < r) : Shape2 (transposeT M) c r := by
  obtain ⟨hM1, hM2⟩ := hM
  have hhead : (M.headD []).length = c := by
    cases M with
    | nil => simp at hM1; omega
    | cons h t => exact hM2 h (by simp)
  constructor
  · simpa [transposeT] using hhead
  · intro row hrow
    simp only [transposeT, List.mem_map] at hrow
    obtain ⟨a, _, hrow⟩ := hrow
    simp [← hrow, hM1]

theorem addMM_shape {M N : Mat} {r c : ℕ} (hM : Shape2 M r c) (hN : Shape2 N r c) :
    Shape2 (addMM M N) r c := by
  obtain ⟨hM1, hM2⟩ := hM
  obtain ⟨hN1, hN2⟩ := hN
  constructor
  · simp [addMM, hM1, hN1]
  · intro row hrow
    simp only [addMM, List.mem_iff_getElem] at hrow
    obtain ⟨i, hi, hrow⟩ := hrow
    simp only [List.getElem_zipWith] at hrow
    simp only [List.length_zipWith] at hi
    rw [← hrow]
    simp only [List.length_zipWith]
    rw [hM2 _ (List.getElem_mem _), hN2 _ (List.getElem_mem _)]
    omega

theorem addSc_shape {M : Mat} {r c : ℕ} {b : ℚ} (hM : Shape2 M r c) :
    Shape2 (addSc M b) r c := by
  obtain ⟨hM1, hM2⟩ := hM
  constructor
  · simp [addSc, hM1]
  · intro row hrow
    simp only [addSc, List.mem_map] at hrow
    obtain ⟨a, ha, hrow⟩ := hrow
    simp [← hrow, hM2 a ha]

theorem expandCols_shape {M : Mat} {r n : ℕ} (hM1 : M.length = r) :
    Shape2 (expandCols n M) r n := by
  exact ⟨by simp [expandCols, hM1], by
    intro row hrow
    simp only [expandCols, List.mem_map] at hrow
    obtain ⟨a, _, hrow⟩ := hrow
    simp [← hrow]⟩

theorem expandRows_shape {M : Mat} {c n : ℕ}
    (hM : (M.getD 0 []).length = c) : Shape2 (expandRows n M) n c := by
  exact ⟨by simp [expandRows], by
    intro row hrow
    simp only [expandRows, List.mem_replicate] at hrow
    rw [hrow.2, hM]⟩

theorem maskedSoftmaxRows_shape {e : ℚ → ℚ} {s : Mat} {mask : List Bool} {r c : ℕ}
    (hs : Shape2 s r c) (hm : mask.length = c) :
    Shape2 (maskedSoftmaxRows e s mask) r c := by
  obtain ⟨h1, h2⟩ := hs
  constructor
  · simp [maskedSoftmaxRows, h1]
  · intro row hrow
    simp only [maskedSoftmaxRows, List.mem_map] at hrow
    obtain ⟨a, ha, hrow⟩ := hrow
    rw [← hrow, maskedSoftmax_length _ _ _ (by rw [hm, h2 a ha]), h2 a ha]

theorem maskedSoftmaxCols_shape {e : ℚ → ℚ} {s : Mat} {mask : List Bool} {r c : ℕ}
    (hs : Shape2 s r c) (hm : mask.length = r) (hr : 0 < r) (hc : 0 < c) :
    Shape2 (maskedSoftmaxCols e s mask) r c := by
  have ht : Shape2 (transposeT s) c r := transposeT_shape hs hr
  have hmap : Shape2 ((transposeT s).map (fun col => maskedSoftmax e col mask)) c r := by
    obtain ⟨h1, h2⟩ := ht
    constructor
    · simp [h1]
    · intro row hrow
      simp only [List.mem_map] at hrow
      obtain ⟨a, ha, hrow⟩ := hrow
      rw [← hrow, maskedSoftmax_length _ _ _ (by rw [hm, h2 a ha]), h2 a ha]
  exact transposeT_shape hmap hc

theorem Shape2.getD_zero {α : Type} {M : List (List α)} {r c : ℕ}
    (h : Shape2 M r c) (hr : 0 < r) : (M.getD 0 []).length = c := by
  obtain ⟨h1, h2⟩ := h
  cases M with
  | nil => simp at h1; omega
  | cons a t => exact h2 a (by simp)

theorem Shape2.headD_len {α : Type} {M : List (List α)} {r c : ℕ}
    (h : Shape2 M r c) (hr : 0 < r) : (M.headD []).length = c := by
  obtain ⟨h1, h2⟩ := h
  cases M with
  | nil => simp at h1; omega
  | cons a t => exact h2 a (by simp)

theorem mem_zipWith' {α β γ : Type} {f : α → β → γ} {a : List α} {b : List β}
    {x : γ} (h : x ∈ List.zipWith f a b) :
    ∃ (i : ℕ) (h1 : i < a.length) (h2 : i < b.length), x = f a[i] b[i] := by
  rw [List.mem_iff_getElem] at h
  obtain ⟨i, hi, hx⟩ := h
  rw [List.getElem_zipWith] at hx
  simp only [List.length_zipWith] at hi
  exact ⟨i, by omega, by omega, hx.symm⟩

theorem bmm_shape {A B : Ten3} {n r k k' p : ℕ} (hA : Shape3 A n r k)
    (hB : Shape3 B n k' p) (hk : 0 < k') : Shape3 (bmm A B) n r p := by
  obtain ⟨hA1, hA2⟩ := hA
  obtain ⟨hB1, hB2⟩ := hB
  refine ⟨by simp [bmm, hA1, hB1], ?_⟩
  intro m hm
  obtain ⟨i, h1, h2, hm⟩ := mem_zipWith' hm
  rw [hm]
  exact matMulM_shape (hA2 _ (List.getElem_mem _)) (hB2 _ (List.getElem_mem _)) hk

theorem mul3_shape {A B : Ten3} {n r c : ℕ} (hA : Shape3 A n r c)
    (hB : Shape3 B n r c) : Shape3 (mul3 A B) n r c := by
  obtain ⟨hA1, hA2⟩ := hA
  obtain ⟨hB1, hB2⟩ := hB
  refine ⟨by simp [mul3, hA1, hB1], ?_⟩
  intro m hm
  obtain ⟨i, h1, h2, hm⟩ := mem_zipWith' hm
  obtain ⟨hx1, hx2⟩ := hA2 _ (List.getElem_mem h1)
  obtain ⟨hy1, hy2⟩ := hB2 _ (List.getElem_mem h2)
  subst hm
  refine ⟨by simp [hx1, hy1], ?_⟩
  intro row hrow
  obtain ⟨j, j1, j2, hrow⟩ := mem_zipWith' hrow
  subst hrow
  simp only [List.length_zipWith]
  rw [hx2 _ (List.getElem_mem _), hy2 _ (List.getElem_mem _)]
  omega

theorem catFeat_shape {A B : Ten3} {n r c₁ c₂ : ℕ} (hA : Shape3 A n r c₁)
    (hB : Shape3 B n r c₂) : Shape3 (catFeat A B) n r (c₁ + c₂) := by
  obtain ⟨hA1, hA2⟩ := hA
  obtain ⟨hB1, hB2⟩ := hB
  refine ⟨by simp [catFeat, hA1, hB1], ?_⟩
  intro m hm
  obtain ⟨i, h1, h2, hm⟩ := mem_zipWith' hm
  obtain ⟨hx1, hx2⟩ := hA2 _ (List.getElem_mem h1)
  obtain ⟨hy1, hy2⟩ := hB2 _ (List.getElem_mem h2)
  subst hm
  refine ⟨by simp [hx1, hy1], ?_⟩
  intro row hrow
  obtain ⟨j, j1, j2, hrow⟩ := mem_zipWith' hrow
  subst hrow
  simp only [List.length_append]
  rw [hx2 _ (List.getElem_mem _), hy2 _ (List.getElem_mem _)]

theorem getSimilarityMatrix_shape {P : BiDAFAttnParams} {training : Bool}
    {νc νq : ℕ → ℕ → ℕ → Bool} {c q : Ten3} {b Lc Lq H : ℕ}
    (hc : Shape3 c b Lc H) (hq : Shape3 q b Lq H)
    (hb : 0 < b) (hLq : 0 < Lq) (hH : 0 < H)
    (hqW : P.qWeight.length = H) (hcqW : P.cqWeight.length = H) :
    Shape3 (BiDAFAttention.getSimilarityMatrix P training νc νq c q) b Lc Lq := by
  have hc' : Shape3 (drop3 P.dropProb training νc c) b Lc H := drop3_shape hc
  have hq' : Shape3 (drop3 P.dropProb training νq q) b Lq H := drop3_shape hq
  have hcLen : (c.headD []).length = Lc := by
    apply (hc.2 (c.headD []) ?_).1
    cases c with
    | nil => exact absurd hc.1 (by simp; omega)
    | cons a t => simp
  have hqLen : (q.headD []).length = Lq := by
    apply (hq.2 (q.headD []) ?_).1
    cases q with
    | nil => exact absurd hq.1 (by simp; omega)
    | cons a t => simp
  have hcolQ : Shape2 (colMat P.qWeight) P.qWeight.length 1 := by
    refine ⟨by simp [colMat], ?_⟩
    intro row hrow
    simp only [colMat, List.mem_map] at hrow
    obtain ⟨a, _, hrow⟩ := hrow
    simp [← hrow]
  refine ⟨by simp [BiDAFAttention.getSimilarityMatrix, hc'.1, hq'.1, hc.1, hq.1], ?_⟩
  intro m hm
  simp only [BiDAFAttention.getSimilarityMatrix] at hm
  obtain ⟨i, h1, h2, hm⟩ := mem_zipWith' hm
  have hic : i < (drop3 P.dropProb training νc c).length := by
    simp only [List.length_zipWith, List.length_map] at h1
    omega
  have hiq : i < (drop3 P.dropProb training νq q).length := by
    simp only [List.length_zipWith, List.length_map] at h2
    omega
  have hCi := hc'.2 _ (List.getElem_mem hic)
  have hQi := hq'.2 _ (List.getElem_mem hiq)
  subst hm
  subst hcLen
  subst hqLen
  simp only [List.getElem_zipWith, List.getElem_map]
  apply addSc_shape
  apply addMM_shape
  · apply addMM_shape
    · exact expandCols_shape (by simp [matMulM, hCi.1])
    · apply expandRows_shape
      refine Shape2.getD_zero (r := 1) ?_ (by omega)
      exact transposeT_shape (matMulM_shape hQi hcolQ (by omega)) hLq
  · refine matMulM_shape (k := H) ?_ (transposeT_shape hQi hLq) hH
    refine ⟨by simp [hCi.1], ?_⟩
    intro row hrow
    simp only [List.mem_map] at hrow
    obtain ⟨a, ha, hrow⟩ := hrow
    subst hrow
    simp only [List.length_zipWith]
    rw [hCi.2 a ha, hcqW]
    omega

theorem BiDAFAttention_forward_shape {e : ℚ → ℚ} {P : BiDAFAttnParams}
    {training : Bool} {νc νq : ℕ → ℕ → ℕ → Bool} {c q : Ten3}
    {cMask qMask : List (List Bool)} {b Lc Lq H : ℕ}
    (hc : Shape3 c b Lc H) (hq : Shape3 q b Lq H)
    (hcm : Shape2 cMask b Lc) (hqm : Shape2 qMask b Lq)
    (hb : 0 < b) (hLc : 0 < Lc) (hLq : 0 < Lq) (hH : 0 < H)
    (hqW : P.qWeight.length = H) (hcqW : P.cqWeight.length = H) :
    Shape3 (BiDAFAttention.forward e P training νc νq c q cMask qMask) b Lc (4 * H) := by
  have hs : Shape3 (BiDAFAttention.getSimilarityMatrix P training νc νq c q) b Lc Lq :=
    getSimilarityMatrix_shape hc hq hb hLq hH hqW hcqW
  have hs1 : Shape3 (List.zipWith (fun sb qm => maskedSoftmaxRows e sb qm)
      (BiDAFAttention.getSimilarityMatrix P training νc νq c q) qMask) b Lc Lq := by
    refine ⟨by simp [hs.1, hqm.1], ?_⟩
    intro m hm
    obtain ⟨i, h1, h2, hm⟩ := mem_zipWith' hm
    subst hm
    exact maskedSoftmaxRows_shape (hs.2 _ (List.getElem_mem _))
      (hqm.2 _ (List.getElem_mem _))
  have hs2 : Shape3 (List.zipWith (fun sb cm => maskedSoftmaxCols e sb cm)
      (BiDAFAttention.getSimilarityMatrix P training νc νq c q) cMask) b Lc Lq := by
    refine ⟨by simp [hs.1, hcm.1], ?_⟩
    intro m hm
    obtain ⟨i, h1, h2, hm⟩ := mem_zipWith' hm
    subst hm
    exact maskedSoftmaxCols_shape (hs.2 _ (List.getElem_mem _))
      (hcm.2 _ (List.getElem_mem _)) hLc hLq
  have hs2T : Shape3 ((List.zipWith (fun sb cm => maskedSoftmaxCols e sb cm)
      (BiDAFAttention.getSimilarityMatrix P training νc νq c q) cMask).map transposeT)
      b Lq Lc := by
    refine ⟨by simp [hs2.1], ?_⟩
    intro m hm
    simp only [List.mem_map] at hm
    obtain ⟨mm, hmm, hm⟩ := hm
    subst hm
    exact transposeT_shape (hs2.2 _ hmm) hLc
  have ha : Shape3 (bmm (List.zipWith (fun sb qm => maskedSoftmaxRows e sb qm)
      (BiDAFAttention.getSimilarityMatrix P training νc νq c q) qMask) q) b Lc H :=
    bmm_shape hs1 hq hLq
  have hbb : Shape3 (bmm (bmm (List.zipWith (fun sb qm => maskedSoftmaxRows e sb qm)
      (BiDAFAttention.getSimilarityMatrix P training νc νq c q) qMask)
      ((List.zipWith (fun sb cm => maskedSoftmaxCols e sb cm)
        (BiDAFAttention.getSimilarityMatrix P training νc νq c q) cMask).map transposeT))
      c) b Lc H :=
    bmm_shape (bmm_shape hs1 hs2T hLq) hc hLc
  have hfinal := catFeat_shape (catFeat_shape (catFeat_shape hc ha) (mul3_shape hc ha))
    (mul3_shape hc hbb)
  have h4 : H + H + H + H = 4 * H := by ring
  rw [h4] at hfinal
  exact hfinal

/-! ## Claims -/

/-- C1: for every batch of context `c` (width H) and query `q` with masks,
`BiDAFAttention.forward` returns the concatenation `[c, a, c⊙a, c⊙b]` along
the feature axis, in exactly that order, where `a = s1 × q` and
`b = s1 × s2ᵀ × c` with `s1`, `s2` the masked-softmax normalizations of the
similarity matrix over the query and context axes respectively; hence the
output has feature width `4 * H` and the same (batch, context_len) leading
shape as the context input. -/
theorem claim_C1 (e : ℚ → ℚ) (P : BiDAFAttnParams) (training : Bool)
    (νc νq : ℕ → ℕ → ℕ → Bool) (c q : Ten3) (cMask qMask : List (List Bool))
    (b Lc Lq H : ℕ)
    (hc : Shape3 c b Lc H) (hq : Shape3 q b Lq H)
    (hcm : Shape2 cMask b Lc) (hqm : Shape2 qMask b Lq)
    (hb : 0 < b) (hLc : 0 < Lc) (hLq : 0 < Lq) (hH : 0 < H)
    (hqW : P.qWeight.length = H) (hcqW : P.cqWeight.length = H) :
    (let s := BiDAFAttention.getSimilarityMatrix P training νc νq c q
     let s1 := List.zipWith (fun sb qm => maskedSoftmaxRows e sb qm) s qMask
     let s2 := List.zipWith (fun sb cm => maskedSoftmaxCols e sb cm) s cMask
     let a := bmm s1 q
     let b2 := bmm (bmm s1 (s2.map transposeT)) c
     BiDAFAttention.forward e P training νc νq c q cMask qMask
       = catFeat (catFeat (catFeat c a) (mul3 c a)) (mul3 c b2))
    ∧ Shape3 (BiDAFAttention.forward e P training νc νq c q cMask qMask) b Lc (4 * H) :=
  ⟨rfl, BiDAFAttention_forward_shape hc hq hcm hqm hb hLc hLq hH hqW hcqW⟩

/-- Witness for C1, the spec's concrete scenario: batch of 2, context padded to
5 (true lengths 3 and 5), query padded to 2, hidden size 4 — the fused output
has shape 2 × 5 × 16. -/
theorem claim_C1_witness :
    Shape3 (BiDAFAttention.forward (fun _ => 1)
      ⟨[1, 0, 0, 0], [0, 1, 0, 0], [0, 0, 1, 0], 1, 0⟩ false
      (fun _ _ _ => false) (fun _ _ _ => false)
      (List.replicate 2 (List.replicate 5 [1, 2, 3, 4]))
      (List.replicate 2 (List.replicate 2 [5, 6, 7, 8]))
      [[true, true, true, false, false], List.replicate 5 true]
      [[true, true], [true, true]]) 2 5 16 :=
  (claim_C1 (fun _ => 1) ⟨[1, 0, 0, 0], [0, 1, 0, 0], [0, 0, 1, 0], 1, 0⟩ false
      (fun _ _ _ => false) (fun _ _ _ => false)
      (List.replicate 2 (List.replicate 5 [1, 2, 3, 4]))
      (List.replicate 2 (List.replicate 2 [5, 6, 7, 8]))
      [[true, true, true, false, false], List.replicate 5 true]
      [[true, true], [true, true]] 2 5 2 4
      (by decide) (by decide) (by decide) (by decide)
      (by decide) (by decide) (by decide) (by decide)
      (by decide) (by decide)).2

/-- C8: with the training flag false, every dropout application in the
pipeline is the identity, so each forward function is independent of the
dropout noise source — two runs on the same inputs give identical outputs. -/
theorem claim_C8 :
    (∀ (p : ℚ) (ν : ℕ → ℕ → ℕ → Bool) (x : Ten3), drop3 p false ν x = x)
    ∧ (∀ (σg : ℚ → ℚ) (P : EmbeddingParams) (ν₁ ν₂ : ℕ → ℕ → ℕ → Bool)
        (x : List (List ℕ)),
        Embedding.forward σg P false ν₁ x = Embedding.forward σg P false ν₂ x)
    ∧ (∀ (σg : ℚ → ℚ) (P : EmbeddingCharParams) (ν₁ ν₂ : ℕ → ℕ → ℕ → Bool)
        (xw : List (List ℕ)) (xc : List (List (List ℕ))),
        EmbeddingChar.forward σg P false ν₁ xw xc
          = EmbeddingChar.forward σg P false ν₂ xw xc)
    ∧ (∀ (m : RNNEncoderM) (cellSem : RnnChoice → CellFun)
        (ν₁ ν₂ : ℕ → ℕ → ℕ → Bool) (x : Ten3) (lens : List ℕ),
        RNNEncoder.forward m cellSem false ν₁ x lens
          = RNNEncoder.forward m cellSem false ν₂ x lens)
    ∧ (∀ (P : BiDAFAttnParams) (νc₁ νq₁ νc₂ νq₂ : ℕ → ℕ → ℕ → Bool) (c q : Ten3),
        BiDAFAttention.getSimilarityMatrix P false νc₁ νq₁ c q
          = BiDAFAttention.getSimilarityMatrix P false νc₂ νq₂ c q) := by
  refine ⟨fun _ _ _ => rfl, fun _ _ _ _ _ => rfl, fun _ _ _ _ _ _ => rfl, ?_,
    fun _ _ _ _ _ _ _ => rfl⟩
  intro m cellSem ν₁ ν₂ x lens
  obtain ⟨h, p, r⟩ := m
  cases r <;> rfl

/-- C9: `EmbeddingChar` and `Embedding_Char` implement the same function — for
identical parameters and every input pair, the two forwards return equal
outputs. -/
theorem claim_C9 : ∀ (σg : ℚ → ℚ) (P : EmbeddingCharParams) (training : Bool)
    (ν : ℕ → ℕ → ℕ → Bool) (xWord : List (List ℕ)) (xChar : List (List (List ℕ))),
    EmbeddingChar.forward σg P training ν xWord xChar
      = Embedding_Char.forward σg P training ν xWord xChar :=
  fun _ _ _ _ _ _ => rfl

theorem zipWith_masked_sum_nonneg (e : ℚ → ℚ) (he : ∀ x, 0 < e x) :
    ∀ (l : Vec) (m : List Bool),
      0 ≤ (List.zipWith (fun l b => if b then e l else 0) l m).sum
  | [], _ => by simp
  | _ :: _, [] => by simp
  | x :: l, b :: m => by
    have ih := zipWith_masked_sum_nonneg e he l m
    have hx := he x
    cases b <;> simp <;> linarith

theorem zipWith_masked_sum_pos (e : ℚ → ℚ) (he : ∀ x, 0 < e x) :
    ∀ (l : Vec) (m : List Bool), m.length = l.length → (∃ b ∈ m, b = true) →
      0 < (List.zipWith (fun l b => if b then e l else 0) l m).sum
  | [], m, hlen, hex => by
    simp at hlen
    subst hlen
    simp at hex
  | x :: l, [], hlen, hex => by simp at hex
  | x :: l, b :: m, hlen, hex => by
    have hnn := zipWith_masked_sum_nonneg e he l m
    have hx := he x
    cases b with
    | true => simp; linarith
    | false =>
      have hex' : ∃ b ∈ m, b = true := by
        obtain ⟨bb, hbm, hbt⟩ := hex
        subst hbt
        simp at hbm
        exact ⟨true, hbm, rfl⟩
      have ih := zipWith_masked_sum_pos e he l m (by simpa using hlen) hex'
      simpa using ih

theorem zipWith_masked_div_sum (e : ℚ → ℚ) (z : ℚ) :
    ∀ (l : Vec) (m : List Bool),
      (List.zipWith (fun l b => if b then e l / z else 0) l m).sum
        = (List.zipWith (fun l b => if b then e l else 0) l m).sum / z
  | [], _ => by simp
  | _ :: _, [] => by simp
  | x :: l, b :: m => by
    have ih := zipWith_masked_div_sum e z l m
    cases b <;> simp [ih, add_div]

theorem maskedSoftmax_all_invalid (e : ℚ → ℚ) (logits : Vec) (mask : List Bool)
    (hz : (List.zipWith (fun l b => if b then e l else 0) logits mask).sum = 0) :
    maskedSoftmax e logits mask = List.replicate logits.length 0 := by
  simp [maskedSoftmax, hz]

theorem maskedSoftmax_some_valid (e : ℚ → ℚ) (logits : Vec) (mask : List Bool)
    (hz : (List.zipWith (fun l b => if b then e l else 0) logits mask).sum ≠ 0) :
    maskedSoftmax e logits mask
      = List.zipWith (fun x b =>
          if b then e x / (List.zipWith (fun l b => if b then e l else 0) logits mask).sum
          else 0) logits mask := by
  simp [maskedSoftmax, hz]

/-- C4: for every (logits, mask) pair fed into `maskedSoftmax` (the
normalization used for `s1`/`s2` in `BiDAFAttention.forward` and for the
output distributions of `BiDAFOutput.forward`), positions marked invalid by
the mask receive exactly zero probability mass regardless of their raw score,
and a row whose mask is entirely invalid yields the all-zero sentinel; the
output is a total, well-defined rational vector (no NaN/Inf exists in this
model) and a row with at least one valid position sums to exactly 1. -/
theorem claim_C4 (e : ℚ → ℚ) (logits : Vec) (mask : List Bool)
    (he : ∀ x, 0 < e x) (hlen : mask.length = logits.length) :
    (maskedSoftmax e logits mask).length = logits.length
    ∧ (∀ i, i < logits.length → mask.getD i true = false →
        (maskedSoftmax e logits mask).getD i 1 = 0)
    ∧ ((∀ b ∈ mask, b = false) →
        maskedSoftmax e logits mask = List.replicate logits.length 0)
    ∧ ((∃ b ∈ mask, b = true) → (maskedSoftmax e logits mask).sum = 1) := by
  refine ⟨maskedSoftmax_length e logits mask hlen, ?_, ?_, ?_⟩
  · intro i hi hmask
    by_cases hz : (List.zipWith (fun l b => if b then e l else 0) logits mask).sum = 0
    · rw [maskedSoftmax_all_invalid e logits mask hz]
      exact getD_replicate' _ _ hi
    · rw [maskedSoftmax_some_valid e logits mask hz]
      have him : i < mask.length := by omega
      rw [getD_zipWith' _ _ _ _ hi him]
      have hmi : mask[i] = false := by
        rw [List.getD_eq_getElem _ _ him] at hmask
        exact hmask
      simp [hmi]
  · intro hall
    exact maskedSoftmax_all_invalid e logits mask
      (zipWith_masked_sum_zero e logits mask hall)
  · intro hex
    have hz := zipWith_masked_sum_pos e he logits mask hlen hex
    have hzne : (List.zipWith (fun l b => if b then e l else 0) logits mask).sum ≠ 0 :=
      ne_of_gt hz
    rw [maskedSoftmax_some_valid e logits mask hzne, zipWith_masked_div_sum]
    exact div_self hzne

/-- Witness for C4: with the constant-1 exponential, logits [3, 5] and mask
[true, false], the masked position gets probability exactly 0; an all-false
mask row yields the all-zero vector; and the half-valid row sums to 1. -/
theorem claim_C4_witness :
    (maskedSoftmax (fun _ => 1) [3, 5] [true, false]).getD 1 1 = 0
    ∧ maskedSoftmax (fun _ => 1) [7, 9] [false, false] = List.replicate 2 0
    ∧ (maskedSoftmax (fun _ => 1) [3, 5] [true, false]).sum = 1 := by
  have h1 := claim_C4 (fun _ => 1) [3, 5] [true, false] (fun _ => one_pos) (by decide)
  have h2 := claim_C4 (fun _ => 1) [7, 9] [false, false] (fun _ => one_pos) (by decide)
  exact ⟨h1.2.1 1 (by decide) (by decide), h2.2.2.1 (by decide),
    h1.2.2.2 ⟨true, by decide, rfl⟩⟩

/-- C5 (evaluation of the code at the failing inputs): `RNNEncoder.__init__`
does not validate its configuration.  With the unrecognized `rnn_type` "FOO"
construction succeeds and `self.rnn` is simply never assigned, so the failure
(`AttributeError`, modelled as `none`) only surfaces at the first `forward`
call; with `rnn_type` "LSTM", `num_layers = 1` and the out-of-range
`drop_prob = 3/2`, construction also succeeds (the `dropout` argument passed
to `nn.LSTM` is 0) and the out-of-range rate is only rejected by `F.dropout`
inside the first `forward` call. -/
theorem claim_C5_code_eval :
    RNNEncoder.init 3 4 1 "FOO" (1/2) = .ok ⟨4, 1/2, none⟩
    ∧ RNNEncoder.forward ⟨4, 1/2, none⟩ (fun _ => id) false (fun _ _ _ => false)
        [[[1]]] [1] = none
    ∧ RNNEncoder.init 3 4 1 "LSTM" (3/2) = .ok ⟨4, 3/2, some .lstm⟩
    ∧ RNNEncoder.forward ⟨4, 3/2, some .lstm⟩ (fun _ => id) false (fun _ _ _ => false)
        [[[1]]] [1] = none := by
  refine ⟨rfl, rfl, rfl, ?_⟩
  have h : ¬((0 : ℚ) ≤ 3/2 ∧ (3 : ℚ)/2 ≤ 1) := by norm_num
  simp [RNNEncoder.forward, h]

theorem highwayStep_length {σg : ℚ → ℚ} {gt : LinParams × LinParams} {x : Vec}
    {h : ℕ} (hgw : gt.1.weight.length = h) (hgb : gt.1.bias.length = h)
    (htw : gt.2.weight.length = h) (htb : gt.2.bias.length = h)
    (hx : x.length = h) : (highwayStep σg gt x).length = h := by
  simp only [highwayStep, linearB, List.length_zipWith, List.length_map,
    hgw, hgb, htw, htb, hx]
  omega

theorem forwardVec_length (σg : ℚ → ℚ) {h : ℕ} :
    ∀ (gs ts : List LinParams) (x : Vec),
      (∀ l ∈ gs, l.weight.length = h ∧ l.bias.length = h) →
      (∀ l ∈ ts, l.weight.length = h ∧ l.bias.length = h) →
      x.length = h → (HighwayEncoder.forwardVec σg gs ts x).length = h
  | [], ts, x, _, _, hx => hx
  | g :: gs, [], x, _, _, hx => hx
  | g :: gs, t :: ts, x, hg, ht, hx => by
    have hstep : (highwayStep σg (g, t) x).length = h :=
      highwayStep_length (hg g (by simp)).1 (hg g (by simp)).2
        (ht t (by simp)).1 (ht t (by simp)).2 hx
    have ih := forwardVec_length σg gs ts (highwayStep σg (g, t) x)
      (fun l hl => hg l (by simp [hl])) (fun l hl => ht l (by simp [hl])) hstep
    simpa [HighwayEncoder.forwardVec] using ih

/-- C6: `HighwayEncoder.forward` with N layers is the N-fold composition of
the per-layer map `x ↦ g⊙t + (1−g)⊙x` (with `g = sigmoid(gate(x))` and
`t = relu(transform(x))`); the output shape equals the input shape at every
layer, and with 0 layers the encoder is the identity. -/
theorem claim_C6 (σg : ℚ → ℚ) (gates transforms : List LinParams) (h : ℕ)
    (hlen : gates.length = transforms.length)
    (hg : ∀ l ∈ gates, l.weight.length = h ∧ l.bias.length = h)
    (ht : ∀ l ∈ transforms, l.weight.length = h ∧ l.bias.length = h)
    (x : Ten3) (hx : ∀ m ∈ x, ∀ v ∈ m, v.length = h) :
    HighwayEncoder.forward σg [] [] x = x
    ∧ (∀ (g t : LinParams) (gs ts : List LinParams) (v : Vec),
        HighwayEncoder.forwardVec σg (g :: gs) (t :: ts) v
          = HighwayEncoder.forwardVec σg gs ts (highwayStep σg (g, t) v))
    ∧ (HighwayEncoder.forward σg gates transforms x).length = x.length
    ∧ (∀ i, ((HighwayEncoder.forward σg gates transforms x).getD i []).length
        = (x.getD i []).length)
    ∧ (∀ m ∈ HighwayEncoder.forward σg gates transforms x, ∀ v ∈ m,
        v.length = h) := by
  have hid : HighwayEncoder.forwardVec σg [] [] = id := rfl
  refine ⟨by simp [HighwayEncoder.forward, hid],
    fun _ _ _ _ _ => rfl, by simp [HighwayEncoder.forward], ?_, ?_⟩
  · intro i
    simp only [HighwayEncoder.forward]
    by_cases hi : i < x.length
    · rw [getD_map' _ _ _ hi, List.getD_eq_getElem _ _ hi, List.length_map]
    · rw [List.getD_eq_default _ _ (by simpa using hi),
        List.getD_eq_default _ _ (by omega)]
  · intro m hm v hv
    simp only [HighwayEncoder.forward, List.mem_map] at hm
    obtain ⟨m₀, hm₀, hm⟩ := hm
    subst hm
    simp only [List.mem_map] at hv
    obtain ⟨v₀, hv₀, hv⟩ := hv
    subst hv
    exact forwardVec_length σg gates transforms v₀ hg ht (hx m₀ hm₀ v₀ hv₀)

/-- Witness for C6: a single highway layer on a 1 × 1 × 2 input with identity
sigmoid keeps the input shape, and the 0-layer encoder is the identity. -/
theorem claim_C6_witness :
    HighwayEncoder.forward (fun v => v) [] [] [[[1, 2]]] = [[[1, 2]]]
    ∧ (HighwayEncoder.forward (fun v => v) [⟨[[1, 0], [0, 1]], [0, 0]⟩]
        [⟨[[1, 0], [0, 1]], [0, 0]⟩] [[[1, 2]]]).length = 1
    ∧ (∀ m ∈ HighwayEncoder.forward (fun v => v) [⟨[[1, 0], [0, 1]], [0, 0]⟩]
        [⟨[[1, 0], [0, 1]], [0, 0]⟩] [[[1, 2]]], ∀ v ∈ m, v.length = 2) := by
  have hh := claim_C6 (fun v => v) [⟨[[1, 0], [0, 1]], [0, 0]⟩]
    [⟨[[1, 0], [0, 1]], [0, 0]⟩] 2 rfl (by decide) (by decide) [[[1, 2]]] (by decide)
  exact ⟨hh.1, hh.2.2.1, hh.2.2.2.2⟩

/-- C7: `CNN.forward` applies a width-k 1-D convolution, then ReLU, then a max
over the character-position axis, yielding one vector per word whose feature
width equals the filter count f regardless of the word length W ≥ k; in
`EmbeddingChar.__init__` the kernel width is hard-coded to 5 and the filter
count to the word-embedding size. -/
theorem claim_C7 (weight : List Mat) (bias : Vec) (X : Mat) (f k : ℕ)
    (hw : weight.length = f) (hb : bias.length = f)
    (hk : ((weight.headD []).headD []).length = k)
    (hW : k ≤ (X.headD []).length) :
    (CNN.forward weight bias X).length = f
    ∧ (∀ row ∈ conv1dW weight bias X, row.length = (X.headD []).length + 1 - k)
    ∧ CNN.forward weight bias X
        = (conv1dW weight bias X).map (fun row => maxList (row.map reluQ))
    ∧ EmbeddingChar.kernelSize = 5
    ∧ (∀ w, EmbeddingChar.nFilters w = w) := by
  refine ⟨?_, ?_, rfl, rfl, fun _ => rfl⟩
  · simp [CNN.forward, conv1dW, hw, hb]
  · intro row hrow
    obtain ⟨i, h1, h2, hrow⟩ := mem_zipWith' hrow
    subst hrow
    simp only [List.length_map, List.length_range]
    rw [hk]

/-- Witness for C7: one filter over two channels with kernel width 2 on a word
of length 3 yields a single feature, and the convolution rows have 3+1-2 = 2
positions. -/
theorem claim_C7_witness :
    (CNN.forward [[[1, 0], [0, 1]]] [0] [[1, 2, 3], [4, 5, 6]]).length = 1
    ∧ (∀ row ∈ conv1dW [[[1, 0], [0, 1]]] [0] [[1, 2, 3], [4, 5, 6]],
        row.length = 3 + 1 - 2) := by
  have hh := claim_C7 [[[1, 0], [0, 1]]] [0] [[1, 2, 3], [4, 5, 6]] 1 2
    (by decide) (by decide) (by decide) (by decide)
  exact ⟨hh.1, hh.2.1⟩

theorem matMulM_colMat (M : Mat) (w : Vec) (hw : w ≠ []) :
    matMulM M (colMat w) = M.map (fun row => [dot row w]) := by
  cases w with
  | nil => exact absurd rfl hw
  | cons a t =>
    have hr1 : List.range 1 = [0] := rfl
    simp only [matMulM, colMat, List.map_cons, List.headD_cons, List.length_cons,
      List.length_nil, Nat.zero_add, hr1, List.map_map]
    apply List.map_congr_left
    intro r _
    simp [Function.comp_def]

theorem transposeT_singleton (M : Mat) (f : Vec → ℚ) (hM : M ≠ []) :
    transposeT (M.map (fun row => [f row])) = [M.map f] := by
  cases M with
  | nil => exact absurd rfl hM
  | cons m t =>
    have hr1 : List.range 1 = [0] := rfl
    simp [transposeT, hr1, Function.comp]

theorem transposeT_col (M : Mat) (j c : ℕ) (hj : j < M.length)
    (hrows : ∀ r ∈ M, r.length = c) :
    (transposeT M).map (fun r => r.getD j 0) = M.getD j [] := by
  have hW0 : (M.headD []).length = c :=
    Shape2.headD_len ⟨rfl, hrows⟩ (by omega)
  have hlen : (M.getD j []).length = c := by
    rw [List.getD_eq_getElem _ _ hj]
    exact hrows _ (List.getElem_mem hj)
  simp only [transposeT, List.map_map]
  have hcong : ∀ jj ∈ List.range (M.headD []).length,
      ((fun r => List.getD r j 0) ∘ fun jj => List.map (fun r => List.getD r jj 0) M) jj
        = (M.getD j []).getD jj 0 := by
    intro jj _
    simp only [Function.comp]
    rw [getD_map' _ _ _ hj, List.getD_eq_getElem _ _ hj]
  rw [List.map_congr_left hcong, hW0]
  exact map_getD_range _ _ hlen

theorem matMulM_entry (M N : Mat) (i j : ℕ) (hi : i < M.length)
    (hj : j < (N.headD []).length) :
    ((matMulM M N).getD i []).getD j 0
      = dot (M.getD i []) (N.map (fun r => r.getD j 0)) := by
  simp only [matMulM]
  rw [getD_map' _ _ _ hi]
  rw [getD_map' _ _ _ (by simpa using hj), List.getElem_range,
    List.getD_eq_getElem _ _ hi]

theorem addMM_entry {M N : Mat} {i j : ℕ} (hiM : i < M.length) (hiN : i < N.length)
    (hjM : j < (M.getD i []).length) (hjN : j < (N.getD i []).length) :
    ((addMM M N).getD i []).getD j 0
      = (M.getD i []).getD j 0 + (N.getD i []).getD j 0 := by
  rw [List.getD_eq_getElem _ _ hiM] at hjM ⊢
  rw [List.getD_eq_getElem _ _ hiN] at hjN ⊢
  simp only [addMM]
  rw [getD_zipWith' _ _ _ _ hiM hiN]
  rw [getD_zipWith' _ _ _ _ hjM hjN, List.getD_eq_getElem _ _ hjM,
    List.getD_eq_getElem _ _ hjN]

theorem addSc_entry {M : Mat} {b : ℚ} {i j : ℕ} (hi : i < M.length)
    (hj : j < (M.getD i []).length) :
    ((addSc M b).getD i []).getD j 0 = (M.getD i []).getD j 0 + b := by
  rw [List.getD_eq_getElem _ _ hi] at hj ⊢
  simp only [addSc]
  rw [getD_map' _ _ _ hi]
  rw [getD_map' _ _ _ hj, List.getD_eq_getElem _ _ hj]

theorem zipWith_add_getD (r s : Vec) (j : ℕ) (hr : j < r.length) (hs : j < s.length) :
    (List.zipWith (· + ·) r s).getD j 0 = r.getD j 0 + s.getD j 0 := by
  rw [getD_zipWith' _ _ _ _ hr hs, List.getD_eq_getElem _ _ hr,
    List.getD_eq_getElem _ _ hs]

theorem simMatrixEntry (cW qW cqW : Vec) (bias : ℚ) (cb qb : Mat) {Lc Lq H i j : ℕ}
    (hcb : Shape2 cb Lc H) (hqb : Shape2 qb Lq H)
    (hi : i < Lc) (hj : j < Lq) (hcW : cW ≠ []) (hqWne : qW ≠ [])
    (hH : 0 < H) :
    ((addSc (addMM (addMM
        (expandCols Lq (matMulM cb (colMat cW)))
        (expandRows Lc (transposeT (matMulM qb (colMat qW)))))
        (matMulM (cb.map (fun row => List.zipWith (· * ·) row cqW)) (transposeT qb)))
      bias).getD i []).getD j 0
    = dot (cb.getD i []) cW + dot (qb.getD j []) qW
      + dot (List.zipWith (· * ·) (cb.getD i []) cqW) (qb.getD j []) + bias := by
  have hicb : i < cb.length := by rw [hcb.1]; exact hi
  have hjqb : j < qb.length := by rw [hqb.1]; exact hj
  have hqbne : qb ≠ [] := by
    intro h
    rw [h] at hjqb
    simp at hjqb
  -- the three component rows at context position i
  have hAi : (expandCols Lq (matMulM cb (colMat cW))).getD i []
      = List.replicate Lq (dot (cb.getD i []) cW) := by
    rw [matMulM_colMat _ _ hcW, List.getD_eq_getElem cb _ hicb]
    simp only [expandCols, List.map_map]
    rw [getD_map' _ _ _ hicb]
    simp [Function.comp_def]
  have hBi : (expandRows Lc (transposeT (matMulM qb (colMat qW)))).getD i []
      = qb.map (fun row => dot row qW) := by
    rw [matMulM_colMat _ _ hqWne, transposeT_singleton _ _ hqbne]
    simp only [expandRows]
    rw [getD_replicate' _ _ hi]
    simp
  have hCij : ((matMulM (cb.map (fun row => List.zipWith (· * ·) row cqW))
      (transposeT qb)).getD i []).getD j 0
      = dot (List.zipWith (· * ·) (cb.getD i []) cqW) (qb.getD j []) := by
    have hTq : Shape2 (transposeT qb) H Lq := transposeT_shape hqb (by omega)
    have hjh : j < ((transposeT qb).headD []).length := by
      rw [Shape2.headD_len hTq hH]
      exact hj
    rw [matMulM_entry _ _ _ _ (by simpa using hicb) hjh,
      transposeT_col qb j H hjqb hqb.2, getD_map' _ _ _ hicb,
      List.getD_eq_getElem cb _ hicb]
  -- lengths of the components
  have hAlen : (expandCols Lq (matMulM cb (colMat cW))).length = Lc := by
    simp [expandCols, matMulM, hcb.1]
  have hBlen : (expandRows Lc (transposeT (matMulM qb (colMat qW)))).length = Lc := by
    simp [expandRows]
  have hClen : (matMulM (cb.map (fun row => List.zipWith (· * ·) row cqW))
      (transposeT qb)).length = Lc := by
    simp [matMulM, hcb.1]
  have hqblen : (qb.map (fun row => dot row qW)).length = Lq := by
    simp [hqb.1]
  have hCrow : ((matMulM (cb.map (fun row => List.zipWith (· * ·) row cqW))
      (transposeT qb)).getD i []).length = Lq := by
    have hTq : Shape2 (transposeT qb) H Lq := transposeT_shape hqb (by omega)
    have hsh : Shape2 (matMulM (cb.map (fun row => List.zipWith (· * ·) row cqW))
        (transposeT qb)) Lc Lq := by
      refine matMulM_shape (k := H ⊓ cqW.length) ?_ hTq hH
      refine ⟨by simp [hcb.1], ?_⟩
      intro row hrow
      simp only [List.mem_map] at hrow
      obtain ⟨a, ha, hrow⟩ := hrow
      subst hrow
      simp [hcb.2 a ha]
    rw [List.getD_eq_getElem _ _ (by rw [hsh.1]; exact hi)]
    exact hsh.2 _ (List.getElem_mem _)
  -- assemble the entry
  have hiM1 : i < (addMM (expandCols Lq (matMulM cb (colMat cW)))
      (expandRows Lc (transposeT (matMulM qb (colMat qW))))).length := by
    simp only [addMM, List.length_zipWith, hAlen, hBlen]
    omega
  have hiM : i < (addMM (addMM (expandCols Lq (matMulM cb (colMat cW)))
      (expandRows Lc (transposeT (matMulM qb (colMat qW)))))
      (matMulM (cb.map (fun row => List.zipWith (· * ·) row cqW))
        (transposeT qb))).length := by
    simp only [addMM, List.length_zipWith, hAlen, hBlen, hClen]
    omega
  have hM1row : (addMM (expandCols Lq (matMulM cb (colMat cW)))
      (expandRows Lc (transposeT (matMulM qb (colMat qW))))).getD i []
      = List.zipWith (· + ·) (List.replicate Lq (dot (cb.getD i []) cW))
          (qb.map (fun row => dot row qW)) := by
    simp only [addMM]
    rw [getD_zipWith' _ _ _ _ (by omega : i < (expandCols Lq (matMulM cb (colMat cW))).length)
      (by omega : i < (expandRows Lc (transposeT (matMulM qb (colMat qW)))).length)]
    rw [← List.getD_eq_getElem _ ([] : Vec), ← List.getD_eq_getElem _ ([] : Vec),
      hAi, hBi]
  have hMrow : (addMM (addMM (expandCols Lq (matMulM cb (colMat cW)))
      (expandRows Lc (transposeT (matMulM qb (colMat qW)))))
      (matMulM (cb.map (fun row => List.zipWith (· * ·) row cqW))
        (transposeT qb))).getD i []
      = List.zipWith (· + ·)
          (List.zipWith (· + ·) (List.replicate Lq (dot (cb.getD i []) cW))
            (qb.map (fun row => dot row qW)))
          ((matMulM (cb.map (fun row => List.zipWith (· * ·) row cqW))
            (transposeT qb)).getD i []) := by
    simp only [addMM]
    rw [getD_zipWith' _ _ _ _ (by simpa [addMM] using hiM1)
      (by omega : i < (matMulM (cb.map (fun row => List.zipWith (· * ·) row cqW))
        (transposeT qb)).length)]
    rw [← List.getD_eq_getElem _ ([] : Vec), ← List.getD_eq_getElem _ ([] : Vec)]
    simp only [addMM] at hM1row
    rw [hM1row]
  rw [show (addSc (addMM (addMM
        (expandCols Lq (matMulM cb (colMat cW)))
        (expandRows Lc (transposeT (matMulM qb (colMat qW)))))
        (matMulM (cb.map (fun row => List.zipWith (· * ·) row cqW)) (transposeT qb)))
      bias).getD i []
    = ((addMM (addMM (expandCols Lq (matMulM cb (colMat cW)))
        (expandRows Lc (transposeT (matMulM qb (colMat qW)))))
        (matMulM (cb.map (fun row => List.zipWith (· * ·) row cqW))
          (transposeT qb))).getD i []).map (· + bias) from by
      simp only [addSc]
      rw [getD_map' _ _ _ hiM, List.getD_eq_getElem _ _ hiM]]
  rw [hMrow]
  have hjz : j < (List.zipWith (· + ·)
      (List.zipWith (· + ·) (List.replicate Lq (dot (cb.getD i []) cW))
        (qb.map (fun row => dot row qW)))
      ((matMulM (cb.map (fun row => List.zipWith (· * ·) row cqW))
        (transposeT qb)).getD i [])).length := by
    simp only [List.length_zipWith, List.length_replicate, hqblen, hCrow]
    omega
  rw [getD_map' _ _ _ hjz, ← List.getD_eq_getElem _ (0 : ℚ)]
  rw [zipWith_add_getD _ _ _ (by simp [hqblen, hCrow]; omega) (by rw [hCrow]; exact hj)]
  rw [zipWith_add_getD _ _ _ (by simp; omega) (by rw [hqblen]; exact hj)]
  rw [getD_replicate' _ _ hj, getD_map' _ _ _ hjqb, List.getD_eq_getElem qb _ hjqb, hCij,
    List.getD_eq_getElem qb _ hjqb]

/-- C2: in eval mode (dropout inactive), the similarity matrix computed by
`BiDAFAttention.get_similarity_matrix` satisfies, for every batch element `bi`
and all positions `i < Lc`, `j < Lq`:
`s[i,j] = Wc·c_i + Wq·q_j + c_i·(Wcq ⊙ q_j) + bias`. -/
theorem claim_C2 (P : BiDAFAttnParams) (νc νq : ℕ → ℕ → ℕ → Bool) (c q : Ten3)
    (b Lc Lq H bi i j : ℕ)
    (hc : Shape3 c b Lc H) (hq : Shape3 q b Lq H)
    (hbi : bi < b) (hi : i < Lc) (hj : j < Lq)
    (hcW : P.cWeight.length = H) (hqW : P.qWeight.length = H) (hH : 0 < H) :
    (((BiDAFAttention.getSimilarityMatrix P false νc νq c q).getD bi []).getD i []).getD j 0
      = dot P.cWeight ((c.getD bi []).getD i [])
        + dot P.qWeight ((q.getD bi []).getD j [])
        + dot ((c.getD bi []).getD i [])
            (List.zipWith (· * ·) P.cqWeight ((q.getD bi []).getD j []))
        + P.bias := by
  have hbic : bi < c.length := by rw [hc.1]; exact hbi
  have hbiq : bi < q.length := by rw [hq.1]; exact hbi
  have hchead : (c.headD []).length = Lc := by
    apply (hc.2 (c.headD []) ?_).1
    cases c with
    | nil => simp at hbic
    | cons a t => simp
  have hqhead : (q.headD []).length = Lq := by
    apply (hq.2 (q.headD []) ?_).1
    cases q with
    | nil => simp at hbiq
    | cons a t => simp
  have hcb : Shape2 (c.getD bi []) Lc H := by
    rw [List.getD_eq_getElem _ _ hbic]
    exact hc.2 _ (List.getElem_mem _)
  have hqb : Shape2 (q.getD bi []) Lq H := by
    rw [List.getD_eq_getElem _ _ hbiq]
    exact hq.2 _ (List.getElem_mem _)
  have hcWne : P.cWeight ≠ [] := by
    intro h
    rw [h] at hcW
    simp at hcW
    omega
  have hqWne : P.qWeight ≠ [] := by
    intro h
    rw [h] at hqW
    simp at hqW
    omega
  simp only [BiDAFAttention.getSimilarityMatrix]
  rw [show drop3 P.dropProb false νc c = c from rfl,
    show drop3 P.dropProb false νq q = q from rfl]
  have hb1 : bi < (List.zipWith addMM
      (List.map (fun cb => expandCols (q.headD []).length (matMulM cb (colMat P.cWeight))) c)
      (List.map (fun qb =>
        expandRows (c.headD []).length (transposeT (matMulM qb (colMat P.qWeight)))) q)).length := by
    simp only [List.length_zipWith, List.length_map]
    omega
  have hb2 : bi < (List.zipWith (fun cb qb =>
      matMulM (List.map (fun row => List.zipWith (· * ·) row P.cqWeight) cb)
        (transposeT qb)) c q).length := by
    simp only [List.length_zipWith]
    omega
  rw [getD_zipWith' _ _ _ _ hb1 hb2]
  simp only [List.getElem_zipWith, List.getElem_map]
  rw [← List.getD_eq_getElem c ([] : Mat) hbic, ← List.getD_eq_getElem q ([] : Mat) hbiq,
    hchead, hqhead]
  rw [simMatrixEntry P.cWeight P.qWeight P.cqWeight P.bias _ _ hcb hqb hi hj hcWne hqWne hH]
  rw [dot_comm ((c.getD bi []).getD i []) P.cWeight,
    dot_comm ((q.getD bi []).getD j []) P.qWeight,
    dot_mul_assoc]

/-- Witness for C2: a concrete 1-element batch with Lc = 2, Lq = 2, H = 2: the
(0,1) entry of the similarity matrix equals the trilinear formula evaluated at
context row 0 and query row 1. -/
theorem claim_C2_witness :
    (((BiDAFAttention.getSimilarityMatrix ⟨[1, 2], [3, 4], [5, 6], 7, 0⟩ false
        (fun _ _ _ => false) (fun _ _ _ => false)
        [[[1, 0], [0, 1]]] [[[2, 3], [4, 5]]]).getD 0 []).getD 0 []).getD 1 0
      = dot [1, 2] [1, 0] + dot [3, 4] [4, 5]
        + dot [1, 0] (List.zipWith (· * ·) [5, 6] [4, 5]) + 7 := by
  have h := claim_C2 ⟨[1, 2], [3, 4], [5, 6], 7, 0⟩
    (fun _ _ _ => false) (fun _ _ _ => false)
    [[[1, 0], [0, 1]]] [[[2, 3], [4, 5]]] 1 2 2 2 0 0 1
    (by decide) (by decide) (by decide) (by decide) (by decide)
    (by decide) (by decide) (by decide)
  simpa using h

theorem insertionSort_range_length (r : ℕ → ℕ → Prop) [DecidableRel r] (n : ℕ) :
    (List.insertionSort r (List.range n)).length = n := by
  rw [(List.perm_insertionSort r _).length_eq, List.length_range]

theorem insertionSort_range_getD_lt (r : ℕ → ℕ → Prop) [DecidableRel r] {n i : ℕ}
    (hi : i < n) : (List.insertionSort r (List.range n)).getD i 0 < n := by
  have hlen := insertionSort_range_length r n
  have hmem : (List.insertionSort r (List.range n)).getD i 0
      ∈ List.insertionSort r (List.range n) := by
    rw [List.getD_eq_getElem _ _ (by omega)]
    exact List.getElem_mem _
  rw [List.mem_insertionSort, List.mem_range] at hmem
  exact hmem

theorem argsort_inverse (p : List ℕ) (n : ℕ) (hp : p.Perm (List.range n))
    {i : ℕ} (hi : i < n) :
    p.getD ((List.insertionSort (fun a b => p.getD a 0 ≤ p.getD b 0)
      (List.range n)).getD i 0) 0 = i := by
  haveI hTot : IsTotal ℕ (fun a b => p.getD a 0 ≤ p.getD b 0) :=
    ⟨fun a b => le_total _ _⟩
  haveI hTrans : IsTrans ℕ (fun a b => p.getD a 0 ≤ p.getD b 0) :=
    ⟨fun a b c' hab hbc => le_trans hab hbc⟩
  have hplen : p.length = n := by rw [hp.length_eq, List.length_range]
  have hu_perm := List.perm_insertionSort (fun a b => p.getD a 0 ≤ p.getD b 0)
    (List.range n)
  have hu_sorted := List.sorted_insertionSort (fun a b => p.getD a 0 ≤ p.getD b 0)
    (List.range n)
  have hulen : (List.insertionSort (fun a b => p.getD a 0 ≤ p.getD b 0)
      (List.range n)).length = n := by
    rw [hu_perm.length_eq, List.length_range]
  have hmap_sorted : List.Sorted (· ≤ ·)
      ((List.insertionSort (fun a b => p.getD a 0 ≤ p.getD b 0)
        (List.range n)).map (fun a => p.getD a 0)) :=
    List.Pairwise.map (fun a => p.getD a 0) (fun a b h => h) hu_sorted
  have hrange_map : (List.range n).map (fun a => p.getD a 0) = p :=
    map_getD_range p 0 hplen
  have hmap_perm : ((List.insertionSort (fun a b => p.getD a 0 ≤ p.getD b 0)
      (List.range n)).map (fun a => p.getD a 0)).Perm (List.range n) := by
    refine (hu_perm.map (fun a => p.getD a 0)).trans ?_
    rw [hrange_map]
    exact hp
  have heq : (List.insertionSort (fun a b => p.getD a 0 ≤ p.getD b 0)
      (List.range n)).map (fun a => p.getD a 0) = List.range n :=
    List.eq_of_perm_of_sorted hmap_perm hmap_sorted (List.sorted_le_range n)
  have hentry : ((List.insertionSort (fun a b => p.getD a 0 ≤ p.getD b 0)
      (List.range n)).map (fun a => p.getD a 0)).getD i 0
      = (List.range n).getD i 0 := by rw [heq]
  rw [getD_map' _ _ _ (by omega), getD_range' n hi] at hentry
  rw [List.getD_eq_getElem _ _ (by omega : i < (List.insertionSort
    (fun a b => p.getD a 0 ≤ p.getD b 0) (List.range n)).length)]
  exact hentry

theorem headD_mem {α : Type} {l : List α} (d : α) (h : l ≠ []) : l.headD d ∈ l := by
  cases l with
  | nil => exact absurd rfl h
  | cons a t => simp

theorem drop3_false (p : ℚ) (ν : ℕ → ℕ → ℕ → Bool) (y : Ten3) :
    drop3 p false ν y = y := rfl

theorem gather_getD {α : Type} (d : α) (x : List α) (idx : List ℕ) {i : ℕ}
    (hi : i < idx.length) :
    (gather d x idx).getD i d = x.getD (idx.getD i 0) d := by
  simp only [gather]
  rw [getD_map' _ _ _ hi, List.getD_eq_getElem idx _ hi]

theorem rnnForwardPipeline_getD (cell : CellFun) (dropProb : ℚ)
    (ν : ℕ → ℕ → ℕ → Bool) (x : Ten3) (lengths : List ℕ) {n L w : ℕ}
    (hxl : x.length = n) (hll : lengths.length = n)
    (hrows : ∀ m ∈ x, m.length = L)
    (hpos : ∀ l ∈ lengths, 0 < l ∧ l ≤ L)
    (hcell : ∀ s : Mat, (cell s).length = s.length ∧ ∀ v ∈ cell s, v.length = w)
    {i : ℕ} (hi : i < n) :
    (rnnForwardPipeline cell dropProb false ν x lengths).getD i []
      = cell ((x.getD i []).take (lengths.getD i 0))
        ++ List.replicate (L - lengths.getD i 0) (List.replicate w 0) := by
  have hn : 0 < n := by omega
  have hxne : x ≠ [] := by
    intro h
    rw [h] at hxl
    simp at hxl
    omega
  have horig : (x.headD []).length = L := hrows _ (headD_mem [] hxne)
  simp only [rnnForwardPipeline, hll, horig]
  rw [drop3_false]
  set p := List.insertionSort (fun a b => lengths.getD b 0 ≤ lengths.getD a 0)
    (List.range n) with hpdef
  set u := List.insertionSort (fun a b => p.getD a 0 ≤ p.getD b 0)
    (List.range n) with hudef
  have hp_perm : p.Perm (List.range n) := by
    rw [hpdef]
    exact List.perm_insertionSort _ _
  have hplen : p.length = n := by rw [hp_perm.length_eq, List.length_range]
  have hulen : u.length = n := by
    rw [hudef]
    exact insertionSort_range_length _ n
  have hjlt : u.getD i 0 < n := by
    rw [hudef]
    exact insertionSort_range_getD_lt _ hi
  have hpj : p.getD (u.getD i 0) 0 = i := by
    have h := argsort_inverse p n hp_perm hi
    rw [← hudef] at h
    exact h
  rw [gather_getD _ _ _ (by rw [hulen]; exact hi)]
  rw [getD_map' _ _ _ (show u.getD i 0 < (List.map cell (List.zipWith
      (fun (m : Mat) (len : ℕ) => m.take len)
      (gather [] x p) (gather 0 lengths p))).length from by
    simp only [List.length_map, List.length_zipWith, gather, hplen]
    omega)]
  rw [List.getElem_map, List.getElem_zipWith]
  simp only [gather]
  rw [List.getElem_map, List.getElem_map]
  rw [← List.getD_eq_getElem p (0 : ℕ) (by rw [hplen]; exact hjlt), hpj]
  have hxi_len : (x.getD i []).length = L := by
    rw [List.getD_eq_getElem _ _ (by omega : i < x.length)]
    exact hrows _ (List.getElem_mem _)
  have hlenmem : lengths.getD i 0 ∈ lengths := by
    rw [List.getD_eq_getElem _ _ (by omega : i < lengths.length)]
    exact List.getElem_mem _
  have hlp := hpos _ hlenmem
  have hmlen : (cell ((x.getD i []).take (lengths.getD i 0))).length
      = lengths.getD i 0 := by
    rw [(hcell _).1, List.length_take, hxi_len]
    exact min_eq_left hlp.2
  have hmne : cell ((x.getD i []).take (lengths.getD i 0)) ≠ [] := by
    intro h
    have h0 : (cell ((x.getD i []).take (lengths.getD i 0))).length = 0 := by
      rw [h]
      rfl
    rw [hmlen] at h0
    omega
  have hmhead : ((cell ((x.getD i []).take (lengths.getD i 0))).headD []).length = w :=
    (hcell _).2 _ (headD_mem [] hmne)
  rw [hmlen, hmhead]

theorem rnnForwardPipeline_length (cell : CellFun) (dropProb : ℚ) (training : Bool)
    (ν : ℕ → ℕ → ℕ → Bool) (x : Ten3) (lengths : List ℕ) {n : ℕ}
    (hll : lengths.length = n) :
    (rnnForwardPipeline cell dropProb training ν x lengths).length = n := by
  have hres : rnnForwardPipeline cell dropProb training ν x lengths
      = drop3 dropProb training ν (rnnForwardPipeline cell dropProb false ν x lengths) :=
    rfl
  rw [hres]
  have hlen0 : (rnnForwardPipeline cell dropProb false ν x lengths).length = n := by
    simp only [rnnForwardPipeline, drop3_false, gather, List.length_map, hll]
    exact insertionSort_range_length _ n
  by_cases ht : training
  · subst ht
    simp [drop3, hlen0]
  · simp only [Bool.not_eq_true] at ht
    subst ht
    rw [drop3_false, hlen0]

theorem rnnForwardPipeline_shape (cell : CellFun) (dropProb : ℚ) (training : Bool)
    (ν : ℕ → ℕ → ℕ → Bool) (x : Ten3) (lengths : List ℕ) {n L w : ℕ}
    (hxl : x.length = n) (hll : lengths.length = n)
    (hrows : ∀ m ∈ x, m.length = L)
    (hpos : ∀ l ∈ lengths, 0 < l ∧ l ≤ L)
    (hcell : ∀ s : Mat, (cell s).length = s.length ∧ ∀ v ∈ cell s, v.length = w) :
    Shape3 (rnnForwardPipeline cell dropProb training ν x lengths) n L w := by
  have hres : rnnForwardPipeline cell dropProb training ν x lengths
      = drop3 dropProb training ν (rnnForwardPipeline cell dropProb false ν x lengths) :=
    rfl
  rw [hres]
  apply drop3_shape
  have hlen0 : (rnnForwardPipeline cell dropProb false ν x lengths).length = n :=
    rnnForwardPipeline_length cell dropProb false ν x lengths hll
  refine ⟨hlen0, ?_⟩
  intro m hm
  rw [List.mem_iff_getElem] at hm
  obtain ⟨i, hilen, heq⟩ := hm
  have hin : i < n := by omega
  have hgetD : (rnnForwardPipeline cell dropProb false ν x lengths).getD i [] = m := by
    rw [List.getD_eq_getElem _ _ hilen, heq]
  rw [rnnForwardPipeline_getD cell dropProb ν x lengths hxl hll hrows hpos hcell hin]
    at hgetD
  subst hgetD
  have hxi_len : (x.getD i []).length = L := by
    rw [List.getD_eq_getElem _ _ (by omega : i < x.length)]
    exact hrows _ (List.getElem_mem _)
  have hlenmem : lengths.getD i 0 ∈ lengths := by
    rw [List.getD_eq_getElem _ _ (by omega : i < lengths.length)]
    exact List.getElem_mem _
  have hlp := hpos _ hlenmem
  have hmlen : (cell ((x.getD i []).take (lengths.getD i 0))).length
      = lengths.getD i 0 := by
    rw [(hcell _).1, List.length_take, hxi_len]
    exact min_eq_left hlp.2
  constructor
  · simp only [List.length_append, hmlen, List.length_replicate]
    omega
  · intro v hv
    rw [List.mem_append] at hv
    rcases hv with hv | hv
    · exact (hcell _).2 _ hv
    · rw [List.eq_of_mem_replicate hv]
      simp

/-- C3: for every supported `rnn_type` and every padded batch with strictly
positive true lengths, `RNNEncoder.forward` performs the same sort / pack /
run / unpack / unsort procedure and returns a tensor with the original padded
sequence length and feature width `2 * hidden_size`; the procedure and this
contract are identical for every cell type (the cell semantics enters only
through the abstract `cellSem`).  The final conjunct shows the pipeline equals
per-example processing in the original batch order: position `i` holds the
cell output on example `i` truncated to its true length, re-padded with zero
vectors. -/
theorem claim_C3 (inputSize hiddenSize numLayers : ℕ) (dropProb : ℚ)
    (hdp : 0 ≤ dropProb ∧ dropProb ≤ 1)
    (cellSem : RnnChoice → CellFun)
    (x : Ten3) (lengths : List ℕ) (n L : ℕ) (ν : ℕ → ℕ → ℕ → Bool)
    (hxl : x.length = n) (hll : lengths.length = n)
    (hrows : ∀ m ∈ x, m.length = L)
    (hpos : ∀ l ∈ lengths, 0 < l ∧ l ≤ L)
    (rnnType : String)
    (hrt : rnnType = "LSTM" ∨ rnnType = "RNN" ∨ rnnType = "GRU"
      ∨ rnnType = "URNN" ∨ rnnType = "GORU") :
    (∃ (m : RNNEncoderM) (ch : RnnChoice),
      RNNEncoder.init inputSize hiddenSize numLayers rnnType dropProb = .ok m
      ∧ m.rnn = some ch
      ∧ RNNEncoder.forward m cellSem false ν x lengths
          = some (rnnForwardPipeline (cellSem ch) dropProb false ν x lengths))
    ∧ (∀ cell : CellFun, CellContract hiddenSize cell →
        Shape3 (rnnForwardPipeline cell dropProb false ν x lengths) n L (2 * hiddenSize)
        ∧ ∀ i, i < n →
          (rnnForwardPipeline cell dropProb false ν x lengths).getD i []
            = cell ((x.getD i []).take (lengths.getD i 0))
              ++ List.replicate (L - lengths.getD i 0)
                  (List.replicate (2 * hiddenSize) 0)) := by
  have hcond : (0 ≤ (if numLayers > 1 then dropProb else 0)
      ∧ (if numLayers > 1 then dropProb else 0) ≤ 1) := by
    split <;> simp [hdp.1, hdp.2]
  constructor
  · rcases hrt with h | h | h | h | h <;> subst h
    · refine ⟨⟨hiddenSize, dropProb, some .lstm⟩, .lstm, ?_, rfl, ?_⟩
      · simp [RNNEncoder.init, hcond]
      · simp only [RNNEncoder.forward]
        rw [if_pos hdp]
    · refine ⟨⟨hiddenSize, dropProb, some .rnn⟩, .rnn, ?_, rfl, ?_⟩
      · simp [RNNEncoder.init, hcond]
      · simp only [RNNEncoder.forward]
        rw [if_pos hdp]
    · refine ⟨⟨hiddenSize, dropProb, some .gru⟩, .gru, ?_, rfl, ?_⟩
      · simp [RNNEncoder.init, hcond]
      · simp only [RNNEncoder.forward]
        rw [if_pos hdp]
    · refine ⟨⟨hiddenSize, dropProb, some .urnn⟩, .urnn, ?_, rfl, ?_⟩
      · simp [RNNEncoder.init]
      · simp only [RNNEncoder.forward]
        rw [if_pos hdp]
    · refine ⟨⟨hiddenSize, dropProb, some .goru⟩, .goru, ?_, rfl, ?_⟩
      · simp [RNNEncoder.init]
      · simp only [RNNEncoder.forward]
        rw [if_pos hdp]
  · intro cell hc
    refine ⟨rnnForwardPipeline_shape cell dropProb false ν x lengths hxl hll
      hrows hpos hc, ?_⟩
    intro i hin
    exact rnnForwardPipeline_getD cell dropProb ν x lengths hxl hll hrows hpos hc hin

/-- Witness for C3: a 2-example batch padded to length 2 with true lengths
[1, 2], hidden size 1, rnn_type "LSTM" and a concrete cell: construction
succeeds, forward runs the pipeline, and the output has shape 2 × 2 × 2. -/
theorem claim_C3_witness :
    (∃ (m : RNNEncoderM) (ch : RnnChoice),
      RNNEncoder.init 3 1 1 "LSTM" 0 = .ok m
      ∧ m.rnn = some ch
      ∧ RNNEncoder.forward m (fun _ => fun s => s.map (fun _ => [0, 0])) false
          (fun _ _ _ => false) [[[1], [2]], [[3], [4]]] [1, 2]
          = some (rnnForwardPipeline ((fun (_ : RnnChoice) => fun (s : Mat) =>
              s.map (fun _ => ([0, 0] : Vec))) RnnChoice.lstm) 0 false
              (fun _ _ _ => false) [[[1], [2]], [[3], [4]]] [1, 2]))
    ∧ Shape3 (rnnForwardPipeline (fun (s : Mat) => s.map (fun _ => ([0, 0] : Vec)))
        0 false (fun _ _ _ => false) [[[1], [2]], [[3], [4]]] [1, 2]) 2 2 (2 * 1) := by
  have hcontract : ∀ ch : RnnChoice, CellContract 1
      ((fun (_ : RnnChoice) => fun (s : Mat) => s.map (fun _ => ([0, 0] : Vec))) ch) := by
    intro ch s
    refine ⟨by simp, ?_⟩
    intro v hv
    simp only [List.mem_map] at hv
    obtain ⟨a, _, hv⟩ := hv
    rw [← hv]
    rfl
  have h := claim_C3 3 1 1 0 (by norm_num)
    (fun _ => fun s => s.map (fun _ => [0, 0]))
    [[[1], [2]], [[3], [4]]] [1, 2] 2 2 (fun _ _ _ => false)
    rfl rfl (by decide) (by decide) "LSTM" (Or.inl rfl)
  exact ⟨h.1, (h.2 _ (hcontract .lstm)).1⟩

theorem headD_eq_getD_zero {α : Type} (l : List α) (d : α) : l.headD d = l.getD 0 d := by
  cases l <;> rfl

theorem drop2_length (p : ℚ) (t : Bool) (ν : ℕ → ℕ → Bool) (x : Mat) :
    (drop2 p t ν x).length = x.length := by
  unfold drop2
  split <;> simp

theorem rnnForwardPipeline_rowlen (cell : CellFun) (dropProb : ℚ) (training : Bool)
    (ν : ℕ → ℕ → ℕ → Bool) (x : Ten3) (lengths : List ℕ) {n L : ℕ}
    (hxl : x.length = n) (hll : lengths.length = n)
    (hrows : ∀ m ∈ x, m.length = L)
    (hcl : ∀ s : Mat, (cell s).length = s.length) :
    ∀ m ∈ rnnForwardPipeline cell dropProb training ν x lengths, m.length = L := by
  have hres : rnnForwardPipeline cell dropProb training ν x lengths
      = drop3 dropProb training ν (rnnForwardPipeline cell dropProb false ν x lengths) :=
    rfl
  have hfalse : ∀ m ∈ rnnForwardPipeline cell dropProb false ν x lengths,
      m.length = L := by
    intro m hm
    have hlen0 : (rnnForwardPipeline cell dropProb false ν x lengths).length = n :=
      rnnForwardPipeline_length cell dropProb false ν x lengths hll
    rw [List.mem_iff_getElem] at hm
    obtain ⟨i, hilen, heq⟩ := hm
    have hin : i < n := by omega
    have hn : 0 < n := by omega
    have hxne : x ≠ [] := by
      intro h
      rw [h] at hxl
      simp at hxl
      omega
    have horig : (x.headD []).length = L := hrows _ (headD_mem [] hxne)
    have hgetD : (rnnForwardPipeline cell dropProb false ν x lengths).getD i [] = m := by
      rw [List.getD_eq_getElem _ _ hilen, heq]
    -- redo the per-index walk without positivity assumptions
    rw [← hgetD]
    clear hgetD heq
    simp only [rnnForwardPipeline, hll, horig]
    rw [drop3_false]
    set p := List.insertionSort (fun a b => lengths.getD b 0 ≤ lengths.getD a 0)
      (List.range n) with hpdef
    set u := List.insertionSort (fun a b => p.getD a 0 ≤ p.getD b 0)
      (List.range n) with hudef
    have hp_perm : p.Perm (List.range n) := by
      rw [hpdef]
      exact List.perm_insertionSort _ _
    have hplen : p.length = n := by rw [hp_perm.length_eq, List.length_range]
    have hulen : u.length = n := by
      rw [hudef]
      exact insertionSort_range_length _ n
    have hjlt : u.getD i 0 < n := by
      rw [hudef]
      exact insertionSort_range_getD_lt _ hin
    rw [gather_getD _ _ _ (by rw [hulen]; exact hin)]
    rw [getD_map' _ _ _ (show u.getD i 0 < (List.map cell (List.zipWith
        (fun (m : Mat) (len : ℕ) => m.take len)
        (gather [] x p) (gather 0 lengths p))).length from by
      simp only [List.length_map, List.length_zipWith, gather, hplen]
      omega)]
    rw [List.getElem_map, List.getElem_zipWith]
    simp only [gather]
    rw [List.getElem_map, List.getElem_map]
    have hpjlt : p.getD (u.getD i 0) 0 ∈ List.range n := by
      have hmem : p.getD (u.getD i 0) 0 ∈ p := by
        rw [List.getD_eq_getElem _ _ (by omega : u.getD i 0 < p.length)]
        exact List.getElem_mem _
      exact hp_perm.mem_iff.mp hmem
    rw [List.mem_range] at hpjlt
    rw [← List.getD_eq_getElem p (0 : ℕ) (by rw [hplen]; exact hjlt)]
    have hxj : (x.getD (p.getD (u.getD i 0) 0) []).length = L := by
      rw [List.getD_eq_getElem _ _ (by omega : p.getD (u.getD i 0) 0 < x.length)]
      exact hrows _ (List.getElem_mem _)
    simp only [List.length_append, List.length_replicate]
    rw [hcl, List.length_take, hxj]
    omega
  rw [hres]
  unfold drop3
  split
  · intro m hm
    obtain ⟨i, h1, h2, hm⟩ := mem_zipWith' hm
    subst hm
    rw [drop2_length]
    exact hfalse _ (List.getElem_mem _)
  · exact hfalse

theorem addLogits_shape (A B : Ten3) (w1 : Mat) (b1 : Vec) (w2 : Mat) (b2 : Vec)
    {b s : ℕ} (hA : A.length = b) (hB : B.length = b)
    (hArows : ∀ m ∈ A, m.length = s) (hBrows : ∀ m ∈ B, m.length = s)
    (hb : 0 < b) (hs : 0 < s)
    (hw1 : w1.length = 1) (hb1 : b1.length = 1)
    (hw2 : w2.length = 1) (hb2 : b2.length = 1) :
    (toTensor3 (List.zipWith addMM (A.map (fun m => m.map (linearB w1 b1)))
      (B.map (fun m => m.map (linearB w2 b2))))).shape = [b, s, 1] := by
  have hA0 : 0 < A.length := by omega
  have hB0 : 0 < B.length := by omega
  have hlen : (List.zipWith addMM (A.map (fun m => m.map (linearB w1 b1)))
      (B.map (fun m => m.map (linearB w2 b2)))).length = b := by
    simp only [List.length_zipWith, List.length_map, hA, hB]
    omega
  have hA0rows : (A.getD 0 []).length = s := by
    rw [List.getD_eq_getElem _ _ hA0]
    exact hArows _ (List.getElem_mem _)
  have hB0rows : (B.getD 0 []).length = s := by
    rw [List.getD_eq_getElem _ _ hB0]
    exact hBrows _ (List.getElem_mem _)
  have hhead : (List.zipWith addMM (A.map (fun m => m.map (linearB w1 b1)))
      (B.map (fun m => m.map (linearB w2 b2)))).headD []
      = addMM ((A.getD 0 []).map (linearB w1 b1)) ((B.getD 0 []).map (linearB w2 b2)) := by
    rw [headD_eq_getD_zero,
      getD_zipWith' _ _ _ _ (by simpa using hA0) (by simpa using hB0),
      List.getElem_map, List.getElem_map,
      ← List.getD_eq_getElem A ([] : Mat) hA0, ← List.getD_eq_getElem B ([] : Mat) hB0]
  have hheadlen : ((List.zipWith addMM (A.map (fun m => m.map (linearB w1 b1)))
      (B.map (fun m => m.map (linearB w2 b2)))).headD []).length = s := by
    rw [hhead]
    simp only [addMM, List.length_zipWith, List.length_map, hA0rows, hB0rows]
    omega
  have hrow0 : (((List.zipWith addMM (A.map (fun m => m.map (linearB w1 b1)))
      (B.map (fun m => m.map (linearB w2 b2)))).headD []).headD [])
      = List.zipWith (· + ·) (linearB w1 b1 ((A.getD 0 []).getD 0 []))
          (linearB w2 b2 ((B.getD 0 []).getD 0 [])) := by
    rw [hhead, headD_eq_getD_zero]
    have hx0 : 0 < ((A.getD 0 []).map (linearB w1 b1)).length := by
      simp only [List.length_map, hA0rows]
      omega
    have hy0 : 0 < ((B.getD 0 []).map (linearB w2 b2)).length := by
      simp only [List.length_map, hB0rows]
      omega
    simp only [addMM]
    rw [getD_zipWith' _ _ _ _ hx0 hy0, List.getElem_map, List.getElem_map,
      ← List.getD_eq_getElem (A.getD 0 []) ([] : Vec)
        (show 0 < (A.getD 0 []).length by rw [hA0rows]; exact hs),
      ← List.getD_eq_getElem (B.getD 0 []) ([] : Vec)
        (show 0 < (B.getD 0 []).length by rw [hB0rows]; exact hs)]
  have hrow0len : (((List.zipWith addMM (A.map (fun m => m.map (linearB w1 b1)))
      (B.map (fun m => m.map (linearB w2 b2)))).headD []).headD []).length = 1 := by
    rw [hrow0]
    simp only [List.length_zipWith, linearB, hw1, hb1, hw2, hb2]
    omega
  simp only [toTensor3]
  rw [hlen, hheadlen, hrow0len]

set_option maxHeartbeats 1000000 in
/-- C10: `BiDAFOutput.forward` applies an unqualified `squeeze()` to the
per-position logits before the masked log-softmax, so for batches with
`batch_size ≥ 2` and context length ≥ 2 both returned log-probability tensors
have shape (batch_size, context_len), but for a batch of size 1 (or a context
of length 1) the squeezed axis is also collapsed and the outputs lose it. -/
theorem claim_C10 (e : ℚ → ℚ) (P : BiDAFOutputParams) (lstmCell : CellFun)
    (training : Bool) (ν : ℕ → ℕ → ℕ → Bool) (att mod : Ten3)
    (mask : List (List Bool)) (b s : ℕ)
    (hatt : att.length = b) (hmod : mod.length = b) (hmask : mask.length = b)
    (hattrows : ∀ m ∈ att, m.length = s) (hmodrows : ∀ m ∈ mod, m.length = s)
    (hb : 0 < b) (hs : 0 < s)
    (ha1w : P.attLinear1.weight.length = 1) (ha1b : P.attLinear1.bias.length = 1)
    (hm1w : P.modLinear1.weight.length = 1) (hm1b : P.modLinear1.bias.length = 1)
    (ha2w : P.attLinear2.weight.length = 1) (ha2b : P.attLinear2.bias.length = 1)
    (hm2w : P.modLinear2.weight.length = 1) (hm2b : P.modLinear2.bias.length = 1)
    (hcl : ∀ seq : Mat, (lstmCell seq).length = seq.length) :
    (2 ≤ b → 2 ≤ s →
      (BiDAFOutput.forward e P lstmCell training ν att mod mask).1.shape = [b, s]
      ∧ (BiDAFOutput.forward e P lstmCell training ν att mod mask).2.shape = [b, s])
    ∧ (b = 1 → 2 ≤ s →
      (BiDAFOutput.forward e P lstmCell training ν att mod mask).1.shape = [s]
      ∧ (BiDAFOutput.forward e P lstmCell training ν att mod mask).2.shape = [s])
    ∧ (s = 1 → 2 ≤ b →
      (BiDAFOutput.forward e P lstmCell training ν att mod mask).1.shape = [b]
      ∧ (BiDAFOutput.forward e P lstmCell training ν att mod mask).2.shape = [b]) := by
  have hll : (mask.map (fun r => (r.map (fun b => if b then 1 else 0)).sum)).length
      = b := by simp [hmask]
  have hmod2len : (rnnForwardPipeline lstmCell P.dropProb training ν mod
      (mask.map (fun r => (r.map (fun b => if b then 1 else 0)).sum))).length = b :=
    rnnForwardPipeline_length _ _ _ _ _ _ hll
  have hmod2rows : ∀ m ∈ rnnForwardPipeline lstmCell P.dropProb training ν mod
      (mask.map (fun r => (r.map (fun b => if b then 1 else 0)).sum)), m.length = s :=
    rnnForwardPipeline_rowlen _ _ _ _ _ _ hmod hll hmodrows hcl
  have hsh1 := addLogits_shape att mod P.attLinear1.weight P.attLinear1.bias
    P.modLinear1.weight P.modLinear1.bias hatt hmod hattrows hmodrows hb hs
    ha1w ha1b hm1w hm1b
  obtain ⟨mod2, hmod2def⟩ : ∃ y, y = rnnForwardPipeline lstmCell P.dropProb training ν
      mod (mask.map (fun r => (r.map (fun b => if b then 1 else 0)).sum)) := ⟨_, rfl⟩
  rw [← hmod2def] at hmod2len hmod2rows
  have hsh2 := addLogits_shape att mod2
    P.attLinear2.weight P.attLinear2.bias P.modLinear2.weight P.modLinear2.bias
    hatt hmod2len hattrows hmod2rows hb hs ha2w ha2b hm2w hm2b
  have hshT : ∀ (t : TensorQ) (mk : List (List Bool)),
      (maskedSoftmaxT e t mk).shape = t.shape := fun _ _ => rfl
  have hshS : ∀ t : TensorQ, t.squeeze.shape = t.shape.filter (fun d => d ≠ 1) :=
    fun _ => rfl
  have hfst : (BiDAFOutput.forward e P lstmCell training ν att mod mask).1.shape
      = [b, s, 1].filter (fun d => d ≠ 1) := by
    simp only [BiDAFOutput.forward]
    rw [hshT, hshS, hsh1]
  have hsnd : (BiDAFOutput.forward e P lstmCell training ν att mod mask).2.shape
      = [b, s, 1].filter (fun d => d ≠ 1) := by
    simp only [BiDAFOutput.forward]
    rw [← hmod2def, hshT, hshS, hsh2]
  refine ⟨fun hb2 hs2 => ?_, fun hb1 hs2 => ?_, fun hs1 hb2 => ?_⟩
  · rw [hfst, hsnd]
    have hbne : b ≠ 1 := by omega
    have hsne : s ≠ 1 := by omega
    constructor <;> simp [List.filter, hbne, hsne]
  · rw [hfst, hsnd]
    subst hb1
    have hsne : s ≠ 1 := by omega
    constructor <;> simp [List.filter, hsne]
  · rw [hfst, hsnd]
    subst hs1
    have hbne : b ≠ 1 := by omega
    constructor <;> simp [List.filter, hbne]

/-- Witness for C10: with batch size 1 and context length 2 the returned
log-probability tensor has shape [2] (the batch axis is gone), while with
batch size 2 it has shape [2, 2]. -/
theorem claim_C10_witness :
    (BiDAFOutput.forward (fun _ => 1)
      ⟨⟨[[1]], [0]⟩, ⟨[[1]], [0]⟩, ⟨[[1]], [0]⟩, ⟨[[1]], [0]⟩, 0⟩
      (fun s => s) false (fun _ _ _ => false)
      [[[1], [2]]] [[[1], [2]]] [[true, true]]).1.shape = [2]
    ∧ (BiDAFOutput.forward (fun _ => 1)
      ⟨⟨[[1]], [0]⟩, ⟨[[1]], [0]⟩, ⟨[[1]], [0]⟩, ⟨[[1]], [0]⟩, 0⟩
      (fun s => s) false (fun _ _ _ => false)
      [[[1], [2]], [[3], [4]]] [[[1], [2]], [[3], [4]]]
      [[true, true], [true, false]]).1.shape = [2, 2] := by
  have h1 := claim_C10 (fun _ => 1)
    ⟨⟨[[1]], [0]⟩, ⟨[[1]], [0]⟩, ⟨[[1]], [0]⟩, ⟨[[1]], [0]⟩, 0⟩
    (fun s => s) false (fun _ _ _ => false)
    [[[1], [2]]] [[[1], [2]]] [[true, true]] 1 2
    (by decide) (by decide) (by decide) (by decide) (by decide)
    (by decide) (by decide) (by decide) (by decide) (by decide) (by decide)
    (by decide) (by decide) (by decide) (by decide) (fun _ => rfl)
  have h2 := claim_C10 (fun _ => 1)
    ⟨⟨[[1]], [0]⟩, ⟨[[1]], [0]⟩, ⟨[[1]], [0]⟩, ⟨[[1]], [0]⟩, 0⟩
    (fun s => s) false (fun _ _ _ => false)
    [[[1], [2]], [[3], [4]]] [[[1], [2]], [[3], [4]]]
    [[true, true], [true, false]] 2 2
    (by decide) (by decide) (by decide) (by decide) (by decide)
    (by decide) (by decide) (by decide) (by decide) (by decide) (by decide)
    (by decide) (by decide) (by decide) (by decide) (fun _ => rfl)
  exact ⟨(h1.2.1 rfl (by omega)).1, (h2.1 (by omega) (by omega)).1⟩
